import Mathlib

/-!
Shallow embedding of the "Sort Imports" source-reorganisation core:
the section-assembler provider (`processContent` and its phases), the
block collectors, the import clause parser / classifier / merger /
formatter, the structured-type sorter and the configuration
normaliser, together with proofs settling the frozen claims about it.

Strings are modelled as `List Char` (`Str`), JavaScript's string and
regular-expression operations as explicit recursive functions, and
`localeCompare(·, undefined, '\x7b sensitivity: base \x7d')` as
case-folded code-point comparison.  `Array.prototype.sort` (stable in
the target runtime) is modelled as a stable insertion sort.
-/

namespace SortImports

abbrev Str := List Char

/-- JavaScript whitespace characters produced or consumed by the code. -/
def isWsChar (c : Char) : Bool :=
  c = ' ' || c = '\t' || c = '\n' || c = '\r' || c = '\x0b' || c = '\x0c'

/-- `String.prototype.trimStart`. -/
def trimLeftJS (s : Str) : Str := s.dropWhile isWsChar

/-- `String.prototype.trimEnd`. -/
def trimRightJS (s : Str) : Str := (s.reverse.dropWhile isWsChar).reverse

/-- `String.prototype.trim`. -/
def trimJS (s : Str) : Str := trimRightJS (trimLeftJS s)

/-- `String.prototype.toLowerCase` (ASCII range, the only one exercised). -/
def toLowerStr (s : Str) : Str := s.map Char.toLower

/-- `a.startsWith(p)`. -/
def startsWithS : Str → Str → Bool
  | _, [] => true
  | [], _ :: _ => false
  | c :: s, p :: ps => c = p && startsWithS s ps

/-- `a.endsWith(p)`. -/
def endsWithS (s p : Str) : Bool := startsWithS s.reverse p.reverse

/-- Substring test (used to state claims about the rendered output). -/
def hasSub (s pat : Str) : Bool :=
  match s with
  | [] => startsWithS [] pat
  | _ :: rest => startsWithS s pat || hasSub rest pat

/-- `content.split(/\r?\n/)`: a lone `\r` is not a separator. -/
def splitLinesJS : Str → List Str
  | [] => [[]]
  | '\r' :: '\n' :: rest => [] :: splitLinesJS rest
  | '\n' :: rest => [] :: splitLinesJS rest
  | c :: rest =>
    match splitLinesJS rest with
    | [] => [[c]]
    | l :: ls => (c :: l) :: ls

/-- `body.split('\n')`. -/
def splitNL : Str → List Str
  | [] => [[]]
  | '\n' :: rest => [] :: splitNL rest
  | c :: rest =>
    match splitNL rest with
    | [] => [[c]]
    | l :: ls => (c :: l) :: ls

/-- `parts.join(sep)`. -/
def joinSep (sep : Str) : List Str → Str
  | [] => []
  | [s] => s
  | s :: rest => s ++ sep ++ joinSep sep rest

/-- `lines.join('\n')`. -/
def joinNL (l : List Str) : Str := joinSep ['\n'] l

/-- `specifiers.split(',')`. -/
def splitComma : Str → List Str
  | [] => [[]]
  | ',' :: rest => [] :: splitComma rest
  | c :: rest =>
    match splitComma rest with
    | [] => [[c]]
    | l :: ls => (c :: l) :: ls

/-- `text.replace(/\s+/g, ' ')`: each whitespace run becomes one space.
The flag records whether the scanner is inside a run already replaced. -/
def collapseWsGo (inRun : Bool) : Str → Str
  | [] => []
  | c :: rest =>
    if isWsChar c then
      if inRun then collapseWsGo true rest
      else ' ' :: collapseWsGo true rest
    else c :: collapseWsGo false rest

def collapseWs (s : Str) : Str := collapseWsGo false s

/-- `text.replace(/\n{3,}/g, '\n\n')`: structural scanner tracking the
current newline-run length. -/
def collapseNLGo (run : Nat) : Str → Str
  | [] => List.replicate (min run 2) '\n'
  | '\n' :: rest => collapseNLGo (run + 1) rest
  | c :: rest => List.replicate (min run 2) '\n' ++ c :: collapseNLGo 0 rest

def collapseNL (s : Str) : Str := collapseNLGo 0 s

/-- Scanner for `noTriple`: `run` is the length of the newline run
ending just before the current position. -/
def noTripleGo (run : Nat) : Str → Bool
  | [] => true
  | c :: rest =>
    if c = '\n' then
      if run + 1 ≥ 3 then false else noTripleGo (run + 1) rest
    else noTripleGo 0 rest

/-- No run of three or more consecutive newline characters. -/
def noTriple (s : Str) : Bool := noTripleGo 0 s

/-- JavaScript `x || y` on numbers (`x` when non-zero, else `y`). -/
def orInt (a b : Int) : Int := if a = 0 then b else a

/-- Lexicographic code-point comparison returning `-1`/`0`/`1`. -/
def lexCmp : Str → Str → Int
  | [], [] => 0
  | [], _ :: _ => -1
  | _ :: _, [] => 1
  | a :: as, b :: bs =>
    if a.toNat < b.toNat then -1
    else if b.toNat < a.toNat then 1
    else lexCmp as bs

/-- `a.localeCompare(b, undefined, \x7b sensitivity: 'base' \x7d)`,
modelled as case-folded code-point comparison. -/
def jsLocaleCompareBase (a b : Str) : Int := lexCmp (toLowerStr a) (toLowerStr b)

/-- Stable insertion used to model `Array.prototype.sort` (stable). -/
def jsInsert (le : α → α → Bool) (a : α) : List α → List α
  | [] => [a]
  | b :: l => if le a b then a :: b :: l else b :: jsInsert le a l

/-- Stable sort by a boolean "comes no later than" relation. -/
def jsSortLe (le : α → α → Bool) : List α → List α
  | [] => []
  | a :: l => jsInsert le a (jsSortLe le l)

/-- `array.sort(cmp)` for a numeric comparator. -/
def jsSort (cmp : α → α → Int) (l : List α) : List α :=
  jsSortLe (fun a b => cmp a b ≤ 0) l

/-! ## Data model (`types.ts`) -/

inductive SortMode where
  | length
  | alphabetical
deriving DecidableEq, Repr

inductive GroupKey where
  | directives
  | react
  | libraries
  | absolute
  | relative
  | sideEffect
  | styles
  | interfaces
  | comments
  | functions
deriving DecidableEq, Repr

/-- The subset of groups an import statement can classify into. -/
inductive ImportGroupKey where
  | react
  | libraries
  | absolute
  | relative
  | sideEffect
  | styles
deriving DecidableEq, Repr

inductive GroupOrderItem where
  | group (g : GroupKey)
  | separator
deriving DecidableEq, Repr

structure CommentEntry where
  line : Str
  originalIndex : Nat
deriving DecidableEq, Repr

structure ImportGroups where
  directives : List Str
  react : List Str
  libraries : List Str
  absolute : List Str
  relative : List Str
  sideEffect : List Str
  styles : List Str
  comments : List CommentEntry
  interfaces : List Str
  functions : List Str
deriving DecidableEq, Repr

structure SortConfig where
  maxLineLength : Nat
  indent : Str
  aliasPrefixes : List Str
  sortMode : SortMode
  styleExtensions : List Str
  groupsOrder : List GroupOrderItem
deriving DecidableEq, Repr

structure ParsedImportBlock where
  source : Str
  quote : Char
  importClause : Option Str
  isTypeOnly : Bool
  hasSemicolon : Bool
deriving DecidableEq, Repr

structure ParsedImportClause where
  defaultImport : Option Str
  namespaceImport : Option Str
  namedSpecifiers : List Str
  mergeable : Bool
deriving DecidableEq, Repr

structure MergedImportEntry where
  source : Str
  quote : Char
  isTypeOnly : Bool
  hasSemicolon : Bool
  clause : Option ParsedImportClause
deriving DecidableEq, Repr

structure BlockCollectionResult where
  block : Str
  nextIdx : Nat
deriving DecidableEq, Repr

/-! ## Regular-expression ports

Every call site of these patterns first collapses whitespace runs to a
single space and trims, so `\s+` is modelled by consuming the whole
whitespace run without the (then unreachable) backtracking into a
multi-character run. -/

def isQuoteChar (c : Char) : Bool := c = '\'' || c = '"'

def isWordChar (c : Char) : Bool := c.isAlphanum || c = '_'

/-- Consume `\s+` (at least one whitespace character, maximally). -/
def wsPlus (s : Str) : Option Str :=
  match s with
  | c :: rest => if isWsChar c then some (rest.dropWhile isWsChar) else none
  | [] => none

/-- Consume a literal. -/
def dropLit (lit s : Str) : Option Str :=
  if startsWithS s lit then some (s.drop lit.length) else none

/-- Consume `['"]([^'"]+)['"]` (closing quote may differ from the
opening one): returns the opening quote, the capture and the rest. -/
def matchQuotedAny (s : Str) : Option (Char × Str × Str) :=
  match s with
  | q :: rest =>
    if isQuoteChar q then
      let src := rest.takeWhile (fun c => !isQuoteChar c)
      match rest.dropWhile (fun c => !isQuoteChar c) with
      | _ :: rest2 => if src = [] then none else some (q, src, rest2)
      | [] => none
    else none
  | [] => none

/-- Consume `(['"])([^'"]+)\1` (closing quote equals the opening one). -/
def matchQuotedBackref (s : Str) : Option (Char × Str × Str) :=
  match s with
  | q :: rest =>
    if isQuoteChar q then
      let src := rest.takeWhile (fun c => !isQuoteChar c)
      match rest.dropWhile (fun c => !isQuoteChar c) with
      | q2 :: rest2 => if src = [] || q2 ≠ q then none else some (q, src, rest2)
      | [] => none
    else none
  | [] => none

/-- `\s*;?$`. -/
def endSemiOpt (s : Str) : Bool :=
  let t := s.dropWhile isWsChar
  t = [] || t = [';']

/-- `\s*(;)?$`, reporting whether the semicolon was present. -/
def endSemiCapture (s : Str) : Option Bool :=
  let t := s.dropWhile isWsChar
  if t = [] then some false else if t = [';'] then some true else none

/-- `/;\s*$/.test(block)`. -/
def testSemiEnd (block : Str) : Bool :=
  match block.reverse.dropWhile isWsChar with
  | ';' :: _ => true
  | _ => false

/-- Capture of `^import\s+['"]([^'"]+)['"]\s*;?$`. -/
def sideEffectSrc (block : Str) : Option Str :=
  match dropLit "import".toList block with
  | none => none
  | some r1 =>
    match wsPlus r1 with
    | none => none
    | some r2 =>
      match matchQuotedAny r2 with
      | none => none
      | some (_, src, r3) => if endSemiOpt r3 then some src else none

/-- `isSideEffectImport` (`importFormatting.ts`). -/
def isSideEffectImport (block : Str) : Bool := (sideEffectSrc block).isSome

/-- The tail `from\s+(['"])([^'"]+)\3\s*(;)?$` of the main import
pattern, applied where the clause ends. -/
def importFromTail (s : Str) : Option (Char × Str × Bool) :=
  match dropLit "from".toList s with
  | none => none
  | some r1 =>
    match wsPlus r1 with
    | none => none
    | some r2 =>
      match matchQuotedBackref r2 with
      | none => none
      | some (q, src, r3) =>
        match endSemiCapture r3 with
        | none => none
        | some semi => some (q, src, semi)

/-- The lazy group `(.+?)\s+from\s+(['"])([^'"]+)\3\s*(;)?$`: the
shortest non-empty clause whose remainder matches the from-tail. -/
def clauseScan (acc : Str) : Str → Option (Str × Char × Str × Bool)
  | [] => none
  | c :: rest =>
    let acc' := acc ++ [c]
    match wsPlus rest with
    | some r1 =>
      match importFromTail r1 with
      | some (q, src, semi) => some (acc', q, src, semi)
      | none => clauseScan acc' rest
    | none => clauseScan acc' rest

/-- The non-side-effect arm of `parseImportBlock`:
`^import\s+(type\s+)?(.+?)\s+from\s+(['"])([^'"]+)\3\s*(;)?$`; the
optional greedy `type\s+` group is attempted first, with fallback. -/
def mainImportMatch (block : Str) : Option ParsedImportBlock :=
  match dropLit "import".toList block with
  | none => none
  | some r1 =>
    match wsPlus r1 with
    | none => none
    | some r2 =>
      let typed : Option (Str × Char × Str × Bool) :=
        match dropLit "type".toList r2 with
        | none => none
        | some r3 =>
          match wsPlus r3 with
          | none => none
          | some r4 => clauseScan [] r4
      match typed with
      | some (cl, q, src, semi) =>
        some ⟨src, q, some (trimJS cl), true, semi⟩
      | none =>
        match clauseScan [] r2 with
        | some (cl, q, src, semi) => some ⟨src, q, some (trimJS cl), false, semi⟩
        | none => none

/-- `parseImportBlock` (`importFormatting.ts`). -/
def parseImportBlock (block : Str) : Option ParsedImportBlock :=
  match sideEffectSrc block with
  | some src =>
    some ⟨src, if block.contains '"' then '"' else '\'', none, false, testSemiEnd block⟩
  | none => mainImportMatch block

/-- Search for `\bfrom\s+['"]([^'"]+)['"]\s*;?$` (leftmost match),
given the character preceding the scan start. -/
def fromSearchGo (prev : Option Char) : Str → Option Str
  | [] => none
  | c :: rest =>
    let boundary := match prev with
      | none => true
      | some p => !isWordChar p
    let here : Option Str :=
      if boundary then
        match dropLit "from".toList (c :: rest) with
        | none => none
        | some r1 =>
          match wsPlus r1 with
          | none => none
          | some r2 =>
            match matchQuotedAny r2 with
            | none => none
            | some (_, src, r3) => if endSemiOpt r3 then some src else none
      else none
    match here with
    | some src => some src
    | none => fromSearchGo (some c) rest

/-- `getImportSource` (`importFormatting.ts`). -/
def getImportSource (block : Str) : Option Str :=
  match sideEffectSrc block with
  | some src => some src
  | none => fromSearchGo none block

/-- `^import\s+type\s+['"][^'"]+['"]\s*;?$`. -/
def typeBareImport (s : Str) : Bool :=
  match dropLit "import".toList s with
  | none => false
  | some r1 =>
    match wsPlus r1 with
    | none => false
    | some r2 =>
      match dropLit "type".toList r2 with
      | none => false
      | some r3 =>
        match wsPlus r3 with
        | none => false
        | some r4 =>
          match matchQuotedAny r4 with
          | none => false
          | some (_, _, r5) => endSemiOpt r5

/-- `^import\b[\s\S]*\bfrom\s+['"][^'"]+['"]\s*;?$`. -/
def importFromAnywhere (s : Str) : Bool :=
  if startsWithS s "import".toList then
    match s.drop 6 with
    | [] => false
    | c :: rest =>
      if isWordChar c then false
      else (fromSearchGo (some 't') (c :: rest)).isSome
  else false

/-- `isCompleteImport` (`blockCollectors.ts`). -/
def isCompleteImport (block : Str) : Bool :=
  let normalized := trimJS (collapseWs block)
  typeBareImport normalized || isSideEffectImport normalized ||
    importFromAnywhere normalized

/-! ## Delimiter scanner (`StructuredTypeSorter`) -/

/-- The five mutually exclusive lexical modes of the scanner. -/
structure ScanModes where
  inSingleQuote : Bool
  inDoubleQuote : Bool
  inTemplateString : Bool
  inLineComment : Bool
  inBlockComment : Bool
deriving DecidableEq, Repr

def ScanModes.start : ScanModes := ⟨false, false, false, false, false⟩

/-- Loop body of `findMatchingBraceIndex`, scanning the suffix of the
text that starts at absolute index `i`; `prev` is the character at
`i - 1` of the full text.  `skip` models the extra `i++` performed
when a comment opener was recognised by lookahead: the lookahead
character is consumed without processing (it still becomes `prev`),
exactly as in the source's double increment. -/
def fmbGo : Str → Nat → Option Char → Int → ScanModes → Bool → Option Nat
  | [], _, _, _, _, _ => none
  | c :: rest, i, prev, count, m, skip =>
    if skip then fmbGo rest (i + 1) (some c) count m false
    else if m.inLineComment then
      fmbGo rest (i + 1) (some c) count
        (if c = '\n' then { m with inLineComment := false } else m) false
    else if m.inBlockComment then
      fmbGo rest (i + 1) (some c) count
        (if prev = some '*' && c = '/' then { m with inBlockComment := false } else m) false
    else if m.inSingleQuote then
      fmbGo rest (i + 1) (some c) count
        (if c = '\'' && prev ≠ some '\\' then { m with inSingleQuote := false } else m) false
    else if m.inDoubleQuote then
      fmbGo rest (i + 1) (some c) count
        (if c = '"' && prev ≠ some '\\' then { m with inDoubleQuote := false } else m) false
    else if m.inTemplateString then
      fmbGo rest (i + 1) (some c) count
        (if c = '`' && prev ≠ some '\\' then { m with inTemplateString := false } else m) false
    else if c = '/' && rest.head? = some '/' then
      fmbGo rest (i + 1) (some c) count { m with inLineComment := true } true
    else if c = '/' && rest.head? = some '*' then
      fmbGo rest (i + 1) (some c) count { m with inBlockComment := true } true
    else if c = '\'' then
      fmbGo rest (i + 1) (some c) count { m with inSingleQuote := true } false
    else if c = '"' then
      fmbGo rest (i + 1) (some c) count { m with inDoubleQuote := true } false
    else if c = '`' then
      fmbGo rest (i + 1) (some c) count { m with inTemplateString := true } false
    else if c = '{' then
      fmbGo rest (i + 1) (some c) (count + 1) m false
    else if c = '}' then
      if count - 1 = 0 then some i
      else fmbGo rest (i + 1) (some c) (count - 1) m false
    else
      fmbGo rest (i + 1) (some c) count m false

/-- Character preceding index `i` of `text` (`text[i - 1]`). -/
def prevCharAt (text : Str) (i : Nat) : Option Char :=
  if i = 0 then none else (text.drop (i - 1)).head?

/-- `StructuredTypeSorter.findMatchingBraceIndex` (`-1` becomes `none`). -/
def findMatchingBraceIndex (text : Str) (openBraceIdx : Nat) : Option Nat :=
  fmbGo (text.drop openBraceIdx) openBraceIdx (prevCharAt text openBraceIdx) 0 .start false

/-- Loop body of `findNextOpenBraceIndex`; `skip` as in `fmbGo`. -/
def fnoGo : Str → Nat → Option Char → ScanModes → Bool → Option Nat
  | [], _, _, _, _ => none
  | c :: rest, i, prev, m, skip =>
    if skip then fnoGo rest (i + 1) (some c) m false
    else if m.inLineComment then
      fnoGo rest (i + 1) (some c)
        (if c = '\n' then { m with inLineComment := false } else m) false
    else if m.inBlockComment then
      fnoGo rest (i + 1) (some c)
        (if prev = some '*' && c = '/' then { m with inBlockComment := false } else m) false
    else if m.inSingleQuote then
      fnoGo rest (i + 1) (some c)
        (if c = '\'' && prev ≠ some '\\' then { m with inSingleQuote := false } else m) false
    else if m.inDoubleQuote then
      fnoGo rest (i + 1) (some c)
        (if c = '"' && prev ≠ some '\\' then { m with inDoubleQuote := false } else m) false
    else if m.inTemplateString then
      fnoGo rest (i + 1) (some c)
        (if c = '`' && prev ≠ some '\\' then { m with inTemplateString := false } else m) false
    else if c = '/' && rest.head? = some '/' then
      fnoGo rest (i + 1) (some c) { m with inLineComment := true } true
    else if c = '/' && rest.head? = some '*' then
      fnoGo rest (i + 1) (some c) { m with inBlockComment := true } true
    else if c = '\'' then
      fnoGo rest (i + 1) (some c) { m with inSingleQuote := true } false
    else if c = '"' then
      fnoGo rest (i + 1) (some c) { m with inDoubleQuote := true } false
    else if c = '`' then
      fnoGo rest (i + 1) (some c) { m with inTemplateString := true } false
    else if c = '{' then
      some i
    else
      fnoGo rest (i + 1) (some c) m false

/-- `StructuredTypeSorter.findNextOpenBraceIndex`. -/
def findNextOpenBraceIndex (text : Str) (startIdx : Nat) : Option Nat :=
  fnoGo (text.drop startIdx) startIdx (prevCharAt text startIdx) .start false

/-! ## Block collectors (`blockCollectors.ts`) -/

def collectImportBlockGo (acc : List Str) (idx : Nat) : List Str → Option BlockCollectionResult
  | [] => none
  | l :: rest =>
    let acc' := acc ++ [l]
    let idx' := idx + 1
    let block := trimJS (joinNL acc')
    if isCompleteImport block then some ⟨block, idx'⟩
    else
      match rest with
      | [] => none
      | r :: _ => if trimJS r = [] then none else collectImportBlockGo acc' idx' rest

/-- `collectImportBlock`. -/
def collectImportBlock (lines : List Str) (startIdx : Nat) : Option BlockCollectionResult :=
  collectImportBlockGo [] startIdx (lines.drop startIdx)

/-- `isFunctionLikeStart`. -/
def isFunctionLikeStart (line : Str) : Bool :=
  startsWithS line "export const ".toList ||
  startsWithS line "const ".toList ||
  startsWithS line "export function ".toList ||
  startsWithS line "function ".toList ||
  startsWithS line "export default ".toList ||
  startsWithS line "export \x7b".toList

/-- Per-line `\x7b`/`\x7d` count update of `collectBraceBlock`. -/
def braceCountLine (st : Int × Bool) (l : Str) : Int × Bool :=
  l.foldl
    (fun st ch =>
      if ch = '{' then (st.1 + 1, true)
      else if ch = '}' then (st.1 - 1, st.2)
      else st)
    st

def collectBraceBlockGo (block : Str) (idx : Nat) (count : Int) (found : Bool) :
    List Str → Option BlockCollectionResult
  | [] => none
  | l :: rest =>
    let block' := block ++ l ++ ['\n']
    let st := braceCountLine (count, found) l
    let idx' := idx + 1
    if st.2 && st.1 = 0 then some ⟨trimJS block', idx'⟩
    else collectBraceBlockGo block' idx' st.1 st.2 rest

/-- `collectBraceBlock`. -/
def collectBraceBlock (lines : List Str) (startIdx : Nat) : Option BlockCollectionResult :=
  collectBraceBlockGo [] startIdx 0 false (lines.drop startIdx)

/-- `collectFunctionBlock`; the call sites guarantee `startIdx` is in
range, so the out-of-range case is mapped to `none`. -/
def collectFunctionBlock (lines : List Str) (startIdx : Nat) : Option BlockCollectionResult :=
  match lines.get? startIdx with
  | none => none
  | some firstRaw =>
    let firstLine := trimJS firstRaw
    if endsWithS firstLine [';'] then some ⟨firstRaw, startIdx + 1⟩
    else if !(firstLine.contains '{') then none
    else collectBraceBlock lines startIdx

/-- Per-line `\x7b\x7d`/`()`/`[]` count update of `collectTypeBlock`. -/
def typeCountLine (st : Int × Int × Int) (l : Str) : Int × Int × Int :=
  l.foldl
    (fun st ch =>
      if ch = '{' then (st.1 + 1, st.2.1, st.2.2)
      else if ch = '}' then (st.1 - 1, st.2.1, st.2.2)
      else if ch = '(' then (st.1, st.2.1 + 1, st.2.2)
      else if ch = ')' then (st.1, st.2.1 - 1, st.2.2)
      else if ch = '[' then (st.1, st.2.1, st.2.2 + 1)
      else if ch = ']' then (st.1, st.2.1, st.2.2 - 1)
      else st)
    st

def collectTypeBlockGo (acc : List Str) (idx : Nat) (st : Int × Int × Int) :
    List Str → Option BlockCollectionResult
  | [] => none
  | l :: rest =>
    let acc' := acc ++ [l]
    let st' := typeCountLine st l
    let idx' := idx + 1
    let trimmed := trimJS l
    if st'.1 ≤ 0 && st'.2.1 ≤ 0 && st'.2.2 ≤ 0 &&
        (endsWithS trimmed [';'] || endsWithS trimmed ['}']) then
      some ⟨trimJS (joinNL acc'), idx'⟩
    else collectTypeBlockGo acc' idx' st' rest

/-- `collectTypeBlock`. -/
def collectTypeBlock (lines : List Str) (startIdx : Nat) : Option BlockCollectionResult :=
  collectTypeBlockGo [] startIdx (0, 0, 0) (lines.drop startIdx)

/-! ## Import formatting and merging (`importFormatting.ts`) -/

/-- `compareStrings`. -/
def compareStrings (a b : Str) (mode : SortMode) : Int :=
  if mode = .alphabetical then jsLocaleCompareBase a b
  else orInt ((a.length : Int) - (b.length : Int)) (jsLocaleCompareBase a b)

/-- `isAliasImport`. -/
def isAliasImport (source : Str) (aliasPrefixes : List Str) : Bool :=
  aliasPrefixes.any fun p =>
    let trimmed := trimJS p
    if trimmed = [] then false
    else if endsWithS trimmed ['/'] then startsWithS source trimmed
    else source = trimmed || startsWithS source (trimmed ++ ['/'])

/-- `isExternalLib`. -/
def isExternalLib (source : Str) (aliasPrefixes : List Str) : Bool :=
  !startsWithS source ['.'] && !startsWithS source ['/'] &&
    !isAliasImport source aliasPrefixes

/-- `isStyleImport`. -/
def isStyleImport (source : Str) (styleExtensions : List Str) : Bool :=
  let normalized := toLowerStr source
  styleExtensions.any fun ext => endsWithS normalized ext

/-- `getImportGroup`. -/
def getImportGroup (block : Str) (config : SortConfig) : Option ImportGroupKey :=
  let normalizedBlock := trimJS (collapseWs block)
  match getImportSource normalizedBlock with
  | none => none
  | some source =>
    if isSideEffectImport normalizedBlock then
      some (if isStyleImport source config.styleExtensions then .styles else .sideEffect)
    else if isStyleImport source config.styleExtensions then some .styles
    else if source = "react".toList || startsWithS source "react/".toList then some .react
    else if isAliasImport source config.aliasPrefixes then some .absolute
    else if startsWithS source ['.'] || startsWithS source ['/'] then some .relative
    else if isExternalLib source config.aliasPrefixes then some .libraries
    else some .absolute

/-- `findNamedImportsRange` (delegating brace matching to the scanner). -/
def findNamedImportsRange (importClause : Str) : Option (Nat × Nat) :=
  match importClause.findIdx? (· = '{') with
  | none => none
  | some openBraceIdx =>
    match findMatchingBraceIndex importClause openBraceIdx with
    | none => none
    | some closeBraceIdx => some (openBraceIdx, closeBraceIdx)

structure NamedSpecifier where
  raw : Str
  sortKey : Str
deriving DecidableEq, Repr

/-- `specifier.replace(/^type\s+/i, '')`. -/
def replaceTypeMarker (s : Str) : Str :=
  if startsWithS (toLowerStr s) "type".toList then
    match wsPlus (s.drop 4) with
    | some r => r
    | none => s
  else s

/-- `parseNamedImports`. -/
def parseNamedImports (specifiersBlock : Str) : List NamedSpecifier :=
  (((splitComma specifiersBlock).map trimJS).filter (· ≠ [])).map fun spec =>
    ⟨spec, trimJS (replaceTypeMarker spec)⟩

/-- `getNamedImportSortKey`. -/
def getNamedImportSortKey (spec : NamedSpecifier) (mode : SortMode) : Str :=
  if mode = .alphabetical then spec.sortKey else spec.raw

/-- `text.replace(/,\s*$/, '')`. -/
def stripTrailingComma (s : Str) : Str :=
  match s.reverse.dropWhile isWsChar with
  | ',' :: rest => rest.reverse
  | _ => s

/-- Loop of `splitTopLevelImportClause`. -/
def splitTopLevelGo (segAcc : Str) (braceCount : Int) : Str → List Str
  | [] => if trimJS segAcc = [] then [] else [trimJS segAcc]
  | c :: rest =>
    if c = '{' then splitTopLevelGo (segAcc ++ [c]) (braceCount + 1) rest
    else if c = '}' then splitTopLevelGo (segAcc ++ [c]) (braceCount - 1) rest
    else if c = ',' && braceCount = 0 then
      (if trimJS segAcc = [] then [] else [trimJS segAcc]) ++ splitTopLevelGo [] 0 rest
    else splitTopLevelGo (segAcc ++ [c]) braceCount rest

/-- `splitTopLevelImportClause`. -/
def splitTopLevelImportClause (importClause : Str) : List Str :=
  splitTopLevelGo [] 0 importClause

/-- The early-return value of `parseImportClause` for unmergeable shapes. -/
def notMergeableClause : ParsedImportClause := ⟨none, none, [], false⟩

/-- Segment loop of `parseImportClause` (segments are non-empty
trimmed strings, so JavaScript truthiness is `isSome`). -/
def clauseSegLoop (dflt ns : Option Str) : List Str → ParsedImportClause
  | [] => ⟨dflt, ns, [], true⟩
  | seg :: rest =>
    if startsWithS seg "* as ".toList then
      if ns.isSome then notMergeableClause
      else clauseSegLoop dflt (some seg) rest
    else if dflt.isSome then notMergeableClause
    else clauseSegLoop (some seg) ns rest

/-- `parseImportClause`. -/
def parseImportClause (importClause : Str) : ParsedImportClause :=
  let trimmedClause := trimJS importClause
  match findNamedImportsRange trimmedClause with
  | some (openBraceIdx, closeBraceIdx) =>
    let beforeNamed := stripTrailingComma (trimJS (trimmedClause.take openBraceIdx))
    let afterNamed := trimJS (trimmedClause.drop (closeBraceIdx + 1))
    let namedSpecifiers :=
      (parseNamedImports
        ((trimmedClause.drop (openBraceIdx + 1)).take (closeBraceIdx - (openBraceIdx + 1)))).map
        (·.raw)
    ⟨if beforeNamed = [] then none else some beforeNamed, none, namedSpecifiers,
      afterNamed = []⟩
  | none =>
    let segments := splitTopLevelImportClause trimmedClause
    if segments.length = 0 || segments.length > 2 then notMergeableClause
    else clauseSegLoop none none segments

/-- JavaScript truthiness of a nullable string. -/
def jsTruthyOpt (o : Option Str) : Bool :=
  match o with
  | some s => s ≠ []
  | none => false

/-- `canMergeImportClauses`. -/
def canMergeImportClauses (existingClause incomingClause : ParsedImportClause) : Bool :=
  let hasConflictingDefault :=
    jsTruthyOpt existingClause.defaultImport && jsTruthyOpt incomingClause.defaultImport &&
      existingClause.defaultImport ≠ incomingClause.defaultImport
  if hasConflictingDefault then false
  else
    let hasConflictingNamespace :=
      jsTruthyOpt existingClause.namespaceImport && jsTruthyOpt incomingClause.namespaceImport &&
        existingClause.namespaceImport ≠ incomingClause.namespaceImport
    if hasConflictingNamespace then false
    else
      let combinesNamespaceWithNamed :=
        (jsTruthyOpt existingClause.namespaceImport &&
          incomingClause.namedSpecifiers.length > 0) ||
        (jsTruthyOpt incomingClause.namespaceImport &&
          existingClause.namedSpecifiers.length > 0)
      !combinesNamespaceWithNamed

/-- JavaScript `a ?? b`. -/
def jsNullish (a b : Option Str) : Option Str :=
  match a with
  | some x => some x
  | none => b

/-- Loop of `dedupeNamedSpecifiers`. -/
def dedupeGo (seen : List Str) : List Str → List Str
  | [] => []
  | s :: rest =>
    let normalizedSpecifier := trimJS s
    if normalizedSpecifier = [] || seen.contains normalizedSpecifier then dedupeGo seen rest
    else normalizedSpecifier :: dedupeGo (seen ++ [normalizedSpecifier]) rest

/-- `dedupeNamedSpecifiers`. -/
def dedupeNamedSpecifiers (specifiers : List Str) : List Str := dedupeGo [] specifiers

/-- `mergeParsedImportClauses`. -/
def mergeParsedImportClauses (existingClause incomingClause : ParsedImportClause) :
    ParsedImportClause :=
  ⟨jsNullish existingClause.defaultImport incomingClause.defaultImport,
   jsNullish existingClause.namespaceImport incomingClause.namespaceImport,
   dedupeNamedSpecifiers (existingClause.namedSpecifiers ++ incomingClause.namedSpecifiers),
   true⟩

def importKeywordOf (isTypeOnly : Bool) : Str :=
  if isTypeOnly then "import type".toList else "import".toList

/-- `[ ... ].filter(Boolean)` over strings. -/
def filterTruthy (l : List Str) : List Str := l.filter (· ≠ [])

/-- `formatImportBlock`. -/
def formatImportBlock (block : Str) (config : SortConfig) : Str :=
  let normalizedBlock := trimJS (collapseWs block)
  match parseImportBlock normalizedBlock with
  | none => block
  | some parsedImport =>
    match parsedImport.importClause with
    | none => block
    | some clause =>
      match findNamedImportsRange clause with
      | none => normalizedBlock
      | some (openBraceIdx, closeBraceIdx) =>
        let beforeNamed := stripTrailingComma (trimJS (clause.take openBraceIdx))
        let afterNamed := trimJS (clause.drop (closeBraceIdx + 1))
        let imports :=
          (jsSort
            (fun a b =>
              compareStrings (getNamedImportSortKey a config.sortMode)
                (getNamedImportSortKey b config.sortMode) config.sortMode)
            (parseNamedImports
              ((clause.drop (openBraceIdx + 1)).take (closeBraceIdx - (openBraceIdx + 1))))).map
            (·.raw)
        if imports = [] then normalizedBlock
        else
          let namedImportsSingleLine :=
            "\x7b ".toList ++ joinSep ", ".toList imports ++ " \x7d".toList
          let clauseParts := filterTruthy [beforeNamed, namedImportsSingleLine, afterNamed]
          let importKeyword := importKeywordOf parsedImport.isTypeOnly
          let singleLineResult :=
            importKeyword ++ [' '] ++ joinSep ", ".toList clauseParts ++ " from ".toList ++
              [parsedImport.quote] ++ parsedImport.source ++ [parsedImport.quote] ++
              (if parsedImport.hasSemicolon then [';'] else [])
          let formattedNamedImports :=
            if singleLineResult.length > config.maxLineLength then
              "\x7b\n".toList ++ config.indent ++
                joinSep ([','] ++ ['\n'] ++ config.indent) imports ++ ",\n\x7d".toList
            else namedImportsSingleLine
          let formattedClause :=
            joinSep ", ".toList (filterTruthy [beforeNamed, formattedNamedImports, afterNamed])
          importKeyword ++ [' '] ++ formattedClause ++ " from ".toList ++
            [parsedImport.quote] ++ parsedImport.source ++ [parsedImport.quote] ++
            (if parsedImport.hasSemicolon then [';'] else [])

/-- `getImportClauseRank`. -/
def getImportClauseRank (importClause : Option Str) : Int :=
  match importClause with
  | none => 3
  | some cl =>
    let trimmed := trimJS cl
    if trimmed = [] then 3
    else if trimmed.contains '{' then (if startsWithS trimmed ['{'] then 1 else 0)
    else 0

/-- `getTypeImportRank`. -/
def getTypeImportRank (isTypeOnly : Bool) : Int := if isTypeOnly then 0 else 1

/-- `compareImportClausesAlphabetically`. -/
def compareImportClausesAlphabetically (a b : Option Str) : Int :=
  orInt (getImportClauseRank a - getImportClauseRank b)
    (jsLocaleCompareBase (a.getD []) (b.getD []))

/-- `compareImportStatements`. -/
def compareImportStatements (a b : Str) (mode : SortMode) : Int :=
  let parsedA := parseImportBlock (trimJS (collapseWs a))
  let parsedB := parseImportBlock (trimJS (collapseWs b))
  match parsedA, parsedB with
  | some pa, some pb =>
    if mode = .alphabetical then
      orInt (jsLocaleCompareBase pa.source pb.source)
        (orInt (getTypeImportRank pa.isTypeOnly - getTypeImportRank pb.isTypeOnly)
          (compareImportClausesAlphabetically pa.importClause pb.importClause))
    else compareStrings a b mode
  | _, _ => compareStrings a b mode

/-- `formatMergedImportEntry`. -/
def formatMergedImportEntry (entry : MergedImportEntry) (config : SortConfig) : Str :=
  match entry.clause with
  | none =>
    "import ".toList ++ [entry.quote] ++ entry.source ++ [entry.quote] ++
      (if entry.hasSemicolon then [';'] else [])
  | some clause =>
    let clauseParts :=
      (if jsTruthyOpt clause.defaultImport then [clause.defaultImport.getD []] else []) ++
      (if jsTruthyOpt clause.namespaceImport then [clause.namespaceImport.getD []]
       else if clause.namedSpecifiers.length ≠ 0 then
        ["\x7b ".toList ++ joinSep ", ".toList clause.namedSpecifiers ++ " \x7d".toList]
       else [])
    formatImportBlock
      (importKeywordOf entry.isTypeOnly ++ [' '] ++ joinSep ", ".toList clauseParts ++
        " from ".toList ++ [entry.quote] ++ entry.source ++ [entry.quote] ++
        (if entry.hasSemicolon then [';'] else []))
      config

/-- State of the `mergeImportStatements` loop. -/
structure MergeState where
  mergedEntries : List MergedImportEntry
  passthroughBlocks : List Str
deriving DecidableEq, Repr

/-- The `mergedEntries.find(...)` predicate. -/
def mergePred (parsedImport : ParsedImportBlock) (parsedClause : ParsedImportClause)
    (e : MergedImportEntry) : Bool :=
  e.source = parsedImport.source && e.isTypeOnly = parsedImport.isTypeOnly &&
    (match e.clause with
     | some cl => canMergeImportClauses cl parsedClause
     | none => false)

/-- `find` plus the in-place mutation of the found merge target:
returns the updated entry list and any passthrough pushed by the
(unreachable) null-clause guard, or `none` when no target matches. -/
def mergeApply (parsedImport : ParsedImportBlock) (parsedClause : ParsedImportClause)
    (blockFmt : Str) : List MergedImportEntry → Option (List MergedImportEntry × List Str)
  | [] => none
  | e :: es =>
    if mergePred parsedImport parsedClause e then
      let e1 := { e with hasSemicolon := e.hasSemicolon || parsedImport.hasSemicolon }
      match e1.clause with
      | none => some (e1 :: es, [blockFmt])
      | some cl =>
        some ({ e1 with clause := some (mergeParsedImportClauses cl parsedClause) } :: es, [])
    else
      match mergeApply parsedImport parsedClause blockFmt es with
      | none => none
      | some (es', ps) => some (e :: es', ps)

/-- One iteration of the `mergeImportStatements` loop. -/
def mergeStep (config : SortConfig) (st : MergeState) (block : Str) : MergeState :=
  let normalizedBlock := trimJS (collapseWs block)
  match parseImportBlock normalizedBlock with
  | none => { st with passthroughBlocks := st.passthroughBlocks ++ [block] }
  | some parsedImport =>
    match parsedImport.importClause with
    | none =>
      if st.mergedEntries.any (fun e => e.source = parsedImport.source && e.clause.isNone) then
        st
      else
        { st with
            mergedEntries := st.mergedEntries ++
              [⟨parsedImport.source, parsedImport.quote, parsedImport.isTypeOnly,
                parsedImport.hasSemicolon, none⟩] }
    | some importClause =>
      let parsedClause := parseImportClause importClause
      if !parsedClause.mergeable then
        { st with
            passthroughBlocks := st.passthroughBlocks ++ [formatImportBlock block config] }
      else
        match mergeApply parsedImport parsedClause (formatImportBlock block config)
            st.mergedEntries with
        | none =>
          { st with
              mergedEntries := st.mergedEntries ++
                [⟨parsedImport.source, parsedImport.quote, parsedImport.isTypeOnly,
                  parsedImport.hasSemicolon,
                  some ⟨parsedClause.defaultImport, parsedClause.namespaceImport,
                    parsedClause.namedSpecifiers, true⟩⟩] }
        | some (entries', ps) =>
          { mergedEntries := entries', passthroughBlocks := st.passthroughBlocks ++ ps }

/-- The loop state of `mergeImportStatements` after all blocks. -/
def mergeEntriesOf (blocks : List Str) (config : SortConfig) : MergeState :=
  blocks.foldl (mergeStep config) ⟨[], []⟩

/-- `mergeImportStatements`. -/
def mergeImportStatements (blocks : List Str) (config : SortConfig) : List Str :=
  let st := mergeEntriesOf blocks config
  st.mergedEntries.map (formatMergedImportEntry · config) ++ st.passthroughBlocks

/-! ## Structured type sorter (`structuredTypeSorter.ts`) -/

/-- `lit` at the start of `s` followed by a `\b` word boundary. -/
def wordLitAt (lit s : Str) : Bool :=
  startsWithS s lit &&
    (match (s.drop lit.length).head? with
     | none => true
     | some c => !isWordChar c)

/-- `/^\s*(?:export\s+)?interface\b/` (and the `type` variant via the
`lit` parameter); the optional greedy `export\s+` group backtracks. -/
def declStartTest (lit : Str) (block : Str) : Bool :=
  let t := block.dropWhile isWsChar
  (match dropLit "export".toList t with
   | some r =>
     match wsPlus r with
     | some r2 => wordLitAt lit r2
     | none => false
   | none => false) ||
  wordLitAt lit t

/-- Scan after `=` for the first non-whitespace character, which must
be an opening brace. -/
def findOpenAfterEquals : Str → Nat → Option Nat
  | [], _ => none
  | c :: rest, i =>
    if isWsChar c then findOpenAfterEquals rest (i + 1)
    else if c = '{' then some i
    else none

/-- `StructuredTypeSorter.findTopLevelBodyRange`. -/
def findTopLevelBodyRange (block : Str) : Option (Nat × Nat) :=
  let interfaceStart := declStartTest "interface".toList block
  let typeStart := declStartTest "type".toList block
  if !interfaceStart && !typeStart then none
  else
    let openIdx? : Option Nat :=
      if interfaceStart then block.findIdx? (· = '{')
      else
        match block.findIdx? (· = '=') with
        | none => none
        | some equalsIdx => findOpenAfterEquals (block.drop (equalsIdx + 1)) (equalsIdx + 1)
    match openIdx? with
    | none => none
    | some openBraceIdx =>
      match findMatchingBraceIndex block openBraceIdx with
      | none => none
      | some closeBraceIdx => some (openBraceIdx, closeBraceIdx)

/-- Loop of `collectTopLevelMembers`; the depth counters persist
across members exactly as in the source. -/
def ctmGo (members currentMember : List Str) (st : Int × Int × Int) :
    List Str → List Str
  | [] =>
    if currentMember.any (fun l => trimJS l ≠ []) then members ++ [joinNL currentMember]
    else members
  | line :: rest =>
    if trimJS line = [] && currentMember.length = 0 then ctmGo members currentMember st rest
    else
      let currentMember' := currentMember ++ [line]
      let st' := typeCountLine st line
      let trimmed := trimJS line
      let isTopLevel := st'.1 = 0 && st'.2.1 = 0 && st'.2.2 = 0
      let isMemberTerminator := endsWithS trimmed [';'] || endsWithS trimmed [',']
      if isTopLevel && isMemberTerminator then
        ctmGo (members ++ [joinNL currentMember']) [] st' rest
      else ctmGo members currentMember' st' rest

/-- `StructuredTypeSorter.collectTopLevelMembers`. -/
def collectTopLevelMembers (body : Str) : List Str := ctmGo [] [] (0, 0, 0) (splitNL body)

/-- `StructuredTypeSorter.getMemberSortKey`. -/
def getMemberSortKey (member : Str) : Str :=
  ((((splitNL member).map trimJS).filter (· ≠ [])).head?).getD []

/-- `StructuredTypeSorter.getStructuredMemberSortValue`. -/
def getStructuredMemberSortValue (member : Str) (mode : SortMode) : Str :=
  if mode = .alphabetical then getMemberSortKey member
  else trimJS (collapseWs member)

/-- The member comparator of `sortStructuredMembers`. -/
def structuredMemberCmp (config : SortConfig) (a b : Str) : Int :=
  compareStrings (getStructuredMemberSortValue a config.sortMode)
    (getStructuredMemberSortValue b config.sortMode) config.sortMode

/-- `StructuredTypeSorter.sortStructuredObjectLiterals`, with explicit
fuel for the recursion through freshly rewritten bodies (the fuel
chosen by the wrappers below is never exhausted on the inputs the
claims evaluate).  The mutual call to `sortStructuredMembers` is
inlined in the nested-members branch; the cursor loop is expressed as
recursion on the suffix after each rewritten brace region (the
scanners restart with cleared modes at the cursor, so scanning the
suffix coincides with the source's absolute-index scan). -/
def sortStructuredObjectLiteralsF (fuel : Nat) (text : Str) (config : SortConfig) : Str :=
  match fuel with
  | 0 => text
  | fuel + 1 =>
    match findNextOpenBraceIndex text 0 with
    | none => text
    | some openBraceIdx =>
      match findMatchingBraceIndex text openBraceIdx with
      | none => text
      | some closeBraceIdx =>
        let pre := text.take (openBraceIdx + 1)
        let body := (text.drop (openBraceIdx + 1)).take (closeBraceIdx - (openBraceIdx + 1))
        let normalizedBody := sortStructuredObjectLiteralsF fuel body config
        let nestedMembers := collectTopLevelMembers normalizedBody
        let mid :=
          if nestedMembers.length ≠ 0 then
            ['\n'] ++
              joinNL
                (jsSort (structuredMemberCmp config)
                  ((collectTopLevelMembers normalizedBody).map fun m =>
                    sortStructuredObjectLiteralsF fuel m config)) ++
              ['\n']
          else normalizedBody
        pre ++ mid ++ (text.drop closeBraceIdx).take 1 ++
          sortStructuredObjectLiteralsF fuel (text.drop (closeBraceIdx + 1)) config

/-- `StructuredTypeSorter.sortStructuredMembers` at a given fuel. -/
def sortStructuredMembersF (fuel : Nat) (body : Str) (config : SortConfig) : List Str :=
  let members := collectTopLevelMembers body
  let normalizedMembers := members.map fun m => sortStructuredObjectLiteralsF fuel m config
  jsSort (structuredMemberCmp config) normalizedMembers

/-- Fuel bound used by the entry points: quadratic in the block size,
ample for every recursion the rewritten bodies can trigger here. -/
def sortFuel (block : Str) : Nat := (block.length + 1) * (block.length + 1)

/-- `StructuredTypeSorter.sortStructuredMembers` at the default fuel. -/
def sortStructuredMembers (body : Str) (config : SortConfig) : List Str :=
  sortStructuredMembersF (sortFuel body) body config

/-- `StructuredTypeSorter.sort`. -/
def structuredTypeSort (block : Str) (config : SortConfig) : Str :=
  match findTopLevelBodyRange block with
  | none => block
  | some (openBraceIdx, closeBraceIdx) =>
    let header := block.take (openBraceIdx + 1)
    let body := (block.drop (openBraceIdx + 1)).take (closeBraceIdx - (openBraceIdx + 1))
    let footer := block.drop closeBraceIdx
    let sortedMembers := sortStructuredMembersF (sortFuel block) body config
    if sortedMembers.length = 0 then block
    else header ++ ['\n'] ++ joinNL sortedMembers ++ ['\n'] ++ footer

/-- `sortTypeMembers` (`importFormatting.ts` wrapper). -/
def sortTypeMembers (block : Str) (config : SortConfig) : Str :=
  structuredTypeSort block config

/-! ## Section assembler (`sortImportsProvider.ts`) -/

def createEmptyGroups : ImportGroups := ⟨[], [], [], [], [], [], [], [], [], []⟩

/-- `/^['"](use (?:client|server))['"]\.?;?$/i` on a trimmed line,
returning the capture in its original casing. -/
def matchDirective (s : Str) : Option Str :=
  match s with
  | [] => none
  | q1 :: rest =>
    if isQuoteChar q1 then
      let d := rest.take 10
      let rest2 := rest.drop 10
      if toLowerStr d = "use client".toList || toLowerStr d = "use server".toList then
        match rest2 with
        | q2 :: rest3 =>
          if isQuoteChar q2 then
            match rest3 with
            | [] => some d
            | ['.'] => some d
            | [';'] => some d
            | ['.', ';'] => some d
            | _ => none
          else none
        | [] => none
      else none
    else none

/-- Directive-extraction pass: collects rewritten directives in file
order and blanks each matched source line. -/
def processDirectivesGo (dirs outLines : List Str) : List Str → List Str × List Str
  | [] => (dirs, outLines)
  | l :: rest =>
    match matchDirective (trimJS l) with
    | some d =>
      processDirectivesGo (dirs ++ [['\''] ++ d ++ ['\'', ';']]) (outLines ++ [[]]) rest
    | none => processDirectivesGo dirs (outLines ++ [l]) rest

/-- The trailing `while (lines[idx]?.trim() === '') idx++` loop. -/
def skipBlankGo (idx : Nat) : List Str → Nat
  | [] => idx
  | l :: rest => if trimJS l = [] then skipBlankGo (idx + 1) rest else idx

/-- `SortImportsProvider.processDirectives`: the directive bucket, the
mutated line buffer, and the start index that skips leading blanks. -/
def processDirectives (lines : List Str) : List Str × List Str × Nat :=
  let (dirs, lines') := processDirectivesGo [] [] lines
  (dirs, lines', skipBlankGo 0 lines')

/-- Modelled from the spec: the provider imports `classifyImport` from
its import-formatting module, whose final revision is absent from the
sources (only the classifier core `getImportGroup` is present).  Per the
spec's classifier section the routine maps the collected import block to
a group using the decision order of `getImportGroup` and appends the
block to that group's bucket; a block with no recognisable source is
dropped, as in the superseded in-repository revision of the same
routine. -/
def classifyImport (block : Str) (groups : ImportGroups) (config : SortConfig) : ImportGroups :=
  match getImportGroup block config with
  | none => groups
  | some .react => { groups with react := groups.react ++ [block] }
  | some .libraries => { groups with libraries := groups.libraries ++ [block] }
  | some .absolute => { groups with absolute := groups.absolute ++ [block] }
  | some .relative => { groups with relative := groups.relative ++ [block] }
  | some .sideEffect => { groups with sideEffect := groups.sideEffect ++ [block] }
  | some .styles => { groups with styles := groups.styles ++ [block] }

/-- The `while (idx < lines.length)` walk of
`SortImportsProvider.processImports`.  The fuel passed by the wrapper
exceeds the line count, and every iteration advances the index by at
least one, so the fuel cannot run out before the loop condition fails. -/
def processImportsGo (lines : List Str) (config : SortConfig) :
    Nat → Nat → ImportGroups → ImportGroups × Nat
  | 0, idx, groups => (groups, idx)
  | fuel + 1, idx, groups =>
    match lines.get? idx with
    | none => (groups, idx)
    | some rawLine =>
      let line := trimJS rawLine
      if line = [] then processImportsGo lines config fuel (idx + 1) groups
      else if startsWithS line "//".toList || startsWithS line "/*".toList ||
          startsWithS line "*".toList then
        processImportsGo lines config fuel (idx + 1)
          { groups with comments := groups.comments ++ [⟨rawLine, idx⟩] }
      else if startsWithS line "interface ".toList ||
          startsWithS line "export interface ".toList then
        match collectBraceBlock lines idx with
        | none => (groups, idx)
        | some r =>
          processImportsGo lines config fuel r.nextIdx
            { groups with interfaces := groups.interfaces ++ [sortTypeMembers r.block config] }
      else if startsWithS line "type ".toList || startsWithS line "export type ".toList then
        match collectTypeBlock lines idx with
        | none => (groups, idx)
        | some r =>
          processImportsGo lines config fuel r.nextIdx
            { groups with interfaces := groups.interfaces ++ [sortTypeMembers r.block config] }
      else if isFunctionLikeStart line then
        match collectFunctionBlock lines idx with
        | none => (groups, idx)
        | some r =>
          processImportsGo lines config fuel r.nextIdx
            { groups with functions := groups.functions ++ [r.block] }
      else if !startsWithS line "import".toList then (groups, idx)
      else
        match collectImportBlock lines idx with
        | none => (groups, idx)
        | some r =>
          processImportsGo lines config fuel r.nextIdx (classifyImport r.block groups config)

/-- `SortImportsProvider.processImports`. -/
def processImports (lines : List Str) (startIdx : Nat) (groups : ImportGroups)
    (config : SortConfig) : ImportGroups × Nat :=
  processImportsGo lines config (lines.length + 1) startIdx groups

/-- The `sortByMode` comparator of `getGroupBlock`. -/
def sortByModeCmp (config : SortConfig) (a b : Str) : Int :=
  if config.sortMode = .alphabetical then compareImportStatements a b config.sortMode
  else compareStrings a b config.sortMode

/-- The `mergeAndSort` helper of `getGroupBlock`. -/
def mergeAndSort (config : SortConfig) (items : List Str) : Str :=
  joinNL (jsSort (sortByModeCmp config) (mergeImportStatements items config))

/-- `SortImportsProvider.getGroupBlock`. -/
def getGroupBlock (group : GroupKey) (groups : ImportGroups) (config : SortConfig) :
    Option Str :=
  match group with
  | .directives =>
    if groups.directives.length ≠ 0 then some (joinNL groups.directives) else none
  | .react =>
    if groups.react.length = 0 then none
    else if config.sortMode = .alphabetical then some (mergeAndSort config groups.react)
    else
      some (joinNL (jsSort (fun a b => compareStrings a b .length)
        (mergeImportStatements groups.react config)))
  | .libraries =>
    if groups.libraries.length ≠ 0 then some (mergeAndSort config groups.libraries) else none
  | .absolute =>
    if groups.absolute.length ≠ 0 then some (mergeAndSort config groups.absolute) else none
  | .relative =>
    if groups.relative.length ≠ 0 then some (mergeAndSort config groups.relative) else none
  | .sideEffect =>
    if groups.sideEffect.length ≠ 0 then some (mergeAndSort config groups.sideEffect) else none
  | .styles =>
    if groups.styles.length ≠ 0 then some (mergeAndSort config groups.styles) else none
  | .interfaces =>
    if groups.interfaces.length ≠ 0 then some (joinNL groups.interfaces) else none
  | .comments =>
    if groups.comments.length = 0 then none
    else
      some (joinNL
        ((jsSort (fun a b => (a.originalIndex : Int) - (b.originalIndex : Int))
          groups.comments).map (·.line)))
  | .functions =>
    if groups.functions.length ≠ 0 then some (joinSep "\n\n".toList groups.functions) else none

/-- The group-rendering fold of `buildResult`: accumulated parts and
the pending-blank-line flag. -/
def buildResultFold (groups : ImportGroups) (config : SortConfig) : List Str × Bool :=
  config.groupsOrder.foldl
    (fun (st : List Str × Bool) item =>
      match item with
      | .separator => (st.1, st.1.length > 0)
      | .group g =>
        match getGroupBlock g groups config with
        | none => st
        | some block =>
          ((if st.1.length > 0 then st.1 ++ [if st.2 then "\n\n".toList else ['\n']]
            else st.1) ++ [block], false))
    ([], false)

/-- `SortImportsProvider.buildResult`. -/
def buildResult (lines : List Str) (startIdx : Nat) (groups : ImportGroups)
    (config : SortConfig) : Str :=
  let rest := trimJS (joinNL (lines.drop startIdx))
  let st := buildResultFold groups config
  let parts :=
    if rest ≠ [] then
      (if st.1.length > 0 then st.1 ++ [if st.2 then "\n\n".toList else ['\n']] else st.1) ++
        [rest]
    else st.1
  trimJS (collapseNL (joinSep [] parts)) ++ ['\n']

/-- `SortImportsProvider.processContent`. -/
def processContent (content : Str) (config : SortConfig) : Str :=
  let lines := splitLinesJS content
  let pd := processDirectives lines
  let groups := { createEmptyGroups with directives := pd.1 }
  let pi := processImports pd.2.1 pd.2.2 groups config
  buildResult pd.2.1 pi.2 pi.1 config

/-- The groups (and stop index) collected by the directive pass plus
the leading-region walk of `processContent`, before rendering. -/
def collectedGroups (content : Str) (config : SortConfig) : ImportGroups × Nat :=
  let lines := splitLinesJS content
  let pd := processDirectives lines
  let groups := { createEmptyGroups with directives := pd.1 }
  processImports pd.2.1 pd.2.2 groups config

/-! ## Configuration (`config.ts` / `types.ts`) -/

def DEFAULT_GROUP_ORDER : List GroupKey :=
  [.directives, .react, .libraries, .absolute, .relative, .sideEffect, .styles,
   .interfaces, .comments, .functions]

def DEFAULT_GROUP_ORDER_WITH_SEPARATORS : List Str :=
  (["directives", "spacing", "react", "spacing", "libraries", "spacing", "absolute",
    "spacing", "relative", "spacing", "sideEffect", "spacing", "styles", "spacing",
    "interfaces", "spacing", "comments", "spacing", "functions"]).map String.toList

/-- String-to-group-key lookup (`valid.has(trimmed)`). -/
def groupKeyOfString (s : Str) : Option GroupKey :=
  if s = "directives".toList then some .directives
  else if s = "react".toList then some .react
  else if s = "libraries".toList then some .libraries
  else if s = "absolute".toList then some .absolute
  else if s = "relative".toList then some .relative
  else if s = "sideEffect".toList then some .sideEffect
  else if s = "styles".toList then some .styles
  else if s = "interfaces".toList then some .interfaces
  else if s = "comments".toList then some .comments
  else if s = "functions".toList then some .functions
  else none

/-- Loop of `normalizeStyleExtensions` (`Set` insertion order). -/
def normStyleGo (acc : List Str) : List Str → List Str
  | [] => acc
  | e :: rest =>
    let trimmed := toLowerStr (trimJS e)
    if trimmed = [] then normStyleGo acc rest
    else
      let v := if startsWithS trimmed ['.'] then trimmed else '.' :: trimmed
      normStyleGo (if acc.contains v then acc else acc ++ [v]) rest

/-- `normalizeStyleExtensions`. -/
def normalizeStyleExtensions (extensions : List Str) : List Str :=
  let normalized := normStyleGo [] extensions
  if normalized.length = 0 then
    ([".css", ".scss", ".sass", ".less"]).map String.toList
  else normalized

/-- One iteration of the `normalizeGroupsOrder` loop: the partial
result and the `usedGroups` set. -/
def normGroupsStep (st : List GroupOrderItem × List GroupKey) (g : Str) :
    List GroupOrderItem × List GroupKey :=
  let trimmed := trimJS g
  if trimmed = "spacing".toList then
    if st.1.length > 0 && st.1.getLast? ≠ some .separator then (st.1 ++ [.separator], st.2)
    else st
  else
    match groupKeyOfString trimmed with
    | some k => if st.2.contains k then st else (st.1 ++ [.group k], st.2 ++ [k])
    | none => st

/-- The trailing `while (result[result.length - 1] === '__separator__')
result.pop()` loop. -/
def dropTrailingSeps (l : List GroupOrderItem) : List GroupOrderItem :=
  (l.reverse.dropWhile (fun x => x == .separator)).reverse

/-- `normalizeGroupsOrder`. -/
def normalizeGroupsOrder (groupsOrder : List Str) : List GroupOrderItem :=
  let st := groupsOrder.foldl normGroupsStep ([], [])
  let withDefaults :=
    st.1 ++ (DEFAULT_GROUP_ORDER.filter (fun k => !st.2.contains k)).map .group
  dropTrailingSeps withDefaults

/-- The configuration `getSortConfig` produces when every setting is
left at its declared default. -/
def defaultSortConfig : SortConfig :=
  ⟨100, "  ".toList, (["@/", "~/", "src/"]).map String.toList, .length,
   normalizeStyleExtensions (([".css", ".scss", ".sass", ".less"]).map String.toList),
   normalizeGroupsOrder DEFAULT_GROUP_ORDER_WITH_SEPARATORS⟩

/-! ## Claim-side definitions -/

/-- The classification decision list exactly as claim C2 words it:
case-insensitive style-extension suffix, then the `react` package or a
`react/` subpath, then an alias-prefix match, then a leading `.`/`/`,
then the external-library test (not alias, not relative, no leading
dot or slash), with a final fallback to the absolute group. -/
def c2Classify (s : Str) (c : SortConfig) : ImportGroupKey :=
  if c.styleExtensions.any (fun ext => endsWithS (toLowerStr s) (toLowerStr ext)) then .styles
  else if s = "react".toList || startsWithS s "react/".toList then .react
  else if isAliasImport s c.aliasPrefixes then .absolute
  else if startsWithS s ['.'] || startsWithS s ['/'] then .relative
  else if !startsWithS s ['.'] && !startsWithS s ['/'] &&
      !isAliasImport s c.aliasPrefixes then .libraries
  else .absolute

/-- The sorted named-specifier texts `formatImportBlock` derives from
the clause's brace range. -/
def namedImportsOf (cl : Str) (o cIdx : Nat) (c : SortConfig) : List Str :=
  (jsSort
    (fun a b =>
      compareStrings (getNamedImportSortKey a c.sortMode)
        (getNamedImportSortKey b c.sortMode) c.sortMode)
    (parseNamedImports ((cl.drop (o + 1)).take (cIdx - (o + 1))))).map (·.raw)

/-- The single-line rendering of the full statement built by
`formatImportBlock` from the parsed pieces. -/
def singleLineRender (pi : ParsedImportBlock) (cl : Str) (o cIdx : Nat) (c : SortConfig) :
    Str :=
  importKeywordOf pi.isTypeOnly ++ [' '] ++
    joinSep ", ".toList
      (filterTruthy [stripTrailingComma (trimJS (cl.take o)),
        "\x7b ".toList ++ joinSep ", ".toList (namedImportsOf cl o cIdx c) ++ " \x7d".toList,
        trimJS (cl.drop (cIdx + 1))]) ++
    " from ".toList ++ [pi.quote] ++ pi.source ++ [pi.quote] ++
    (if pi.hasSemicolon then [';'] else [])

/-- The group keys of a normalised order, separators skipped. -/
def keysOf (l : List GroupOrderItem) : List GroupKey :=
  l.filterMap fun item =>
    match item with
    | .group g => some g
    | .separator => none

/-- First occurrences of each key, in order of first appearance. -/
def firstOccurs (l : List GroupKey) : List GroupKey :=
  l.foldl (fun acc k => if acc.contains k then acc else acc ++ [k]) []

/-- A merged entry for source `s` and type-only flag `t` whose clause
carries the default binding `d`. -/
def entryCarries (s : Str) (t : Bool) (d : Str) (e : MergedImportEntry) : Bool :=
  e.source = s && e.isTypeOnly = t &&
    (match e.clause with
     | some cl => cl.defaultImport = some d
     | none => false)

/-- An import block that parses to source `s` and type-only flag `t`
with a mergeable clause whose default binding is `d`. -/
def importHasDefault (s : Str) (t : Bool) (d : Str) (block : Str) : Bool :=
  match parseImportBlock (trimJS (collapseWs block)) with
  | none => false
  | some parsedImport =>
    parsedImport.source = s && parsedImport.isTypeOnly = t &&
      (match parsedImport.importClause with
       | none => false
       | some ic =>
         (parseImportClause ic).mergeable &&
           (parseImportClause ic).defaultImport = some d)

/-- Invariant of the merge loop: no stored clause carries the
JavaScript-falsy empty default binding (the parser never produces one). -/
def stateOk (st : MergeState) : Prop :=
  ∀ e ∈ st.mergedEntries, ∀ cl, e.clause = some cl → cl.defaultImport ≠ some []

/-! ## Theorems -/

/-- `join` against a separator distributes over a final element. -/
theorem joinSep_append_single (sep : Str) (xs : List Str) (y : Str) (h : xs ≠ []) :
    joinSep sep (xs ++ [y]) = joinSep sep xs ++ sep ++ y := by
  induction xs with
  | nil => exact absurd rfl h
  | cons a rest ih =>
    cases rest with
    | nil => simp [joinSep]
    | cons b t =>
      show a ++ sep ++ joinSep sep ((b :: t) ++ [y]) = a ++ sep ++ joinSep sep (b :: t) ++ sep ++ y
      rw [ih (by simp)]
      simp [List.append_assoc]

/-- Inner shape of the wrapped named-specifier block: indent-prefixed
lines with a trailing comma each. -/
theorem wrapInnerEq (ind : Str) :
    ∀ l a, ind ++ joinSep ([','] ++ ['\n'] ++ ind) (a :: l) ++ [','] =
      joinNL ((a :: l).map fun sp => ind ++ sp ++ [',']) := by
  intro l
  induction l with
  | nil => intro a; simp [joinSep, joinNL]
  | cons b t ih =>
    intro a
    simp only [joinNL, joinSep, List.map_cons] at ih ⊢
    rw [← ih b]
    simp [List.append_assoc]

/-- `join('\n')` distributes over a leading element. -/
theorem joinNL_cons (x : Str) (rest : List Str) (h : rest ≠ []) :
    joinNL (x :: rest) = x ++ ['\n'] ++ joinNL rest := by
  cases rest with
  | nil => exact absurd rfl h
  | cons b t => simp [joinNL, joinSep, List.append_assoc]

/-- The code's wrapped rendering
`\x7b\n indent + join(',\n' + indent) + ',\n\x7d'` equals the claim's
line-by-line form: `\x7b`, then each specifier as `indent ++ sp ++ ','`
(the last included), then `\x7d`. -/
theorem wrapJoinEq (ind : Str) (l : List Str) (h : l ≠ []) :
    "\x7b\n".toList ++ ind ++ joinSep ([','] ++ ['\n'] ++ ind) l ++ ",\n\x7d".toList =
      joinNL (["\x7b".toList] ++ (l.map fun sp => ind ++ sp ++ [',']) ++ ["\x7d".toList]) := by
  cases l with
  | nil => exact absurd rfl h
  | cons a t =>
    have h1 : joinNL ((["\x7b".toList] : List Str) ++
          ((a :: t).map fun sp => ind ++ sp ++ [',']) ++ ["\x7d".toList]) =
        "\x7b".toList ++ ['\n'] ++
          joinNL (((a :: t).map fun sp => ind ++ sp ++ [',']) ++ ["\x7d".toList]) := by
      rw [List.singleton_append]
      exact joinNL_cons _ _ (by simp)
    have h2 : joinNL ((((a :: t)).map fun sp => ind ++ sp ++ [',']) ++ ["\x7d".toList]) =
        joinNL ((a :: t).map fun sp => ind ++ sp ++ [',']) ++ ['\n'] ++ "\x7d".toList := by
      show joinSep ['\n'] _ = _
      rw [joinSep_append_single ['\n'] _ _ (by simp)]
      rfl
    rw [h1, h2, ← wrapInnerEq ind t a]
    simp [List.append_assoc]

/-- Over a set of already-lowercased extensions, the claim's
case-insensitive suffix test agrees with the source's (which lowercases
only the path). -/
theorem styleAny_lower_eq (s : Str) :
    ∀ exts : List Str, (∀ ext ∈ exts, toLowerStr ext = ext) →
      (exts.any fun ext => endsWithS (toLowerStr s) (toLowerStr ext)) =
        isStyleImport s exts := by
  intro exts h
  unfold isStyleImport
  induction exts with
  | nil => rfl
  | cons e rest ih =>
    simp only [List.any_cons]
    rw [h e (by simp), ih fun ext hm => h ext (by simp [hm])]

set_option maxRecDepth 400000 in
/-- Claim C1: the spec requires `processContent(processContent(t, c), c)
= processContent(t, c)` for every text and configuration.  The code
violates this: on `interface A \x7b x: string \x7d` (whose single member
lacks a trailing terminator) the first pass renders the member on its
own line, and the second pass re-collects that member together with a
trailing empty line, inserting an extra blank line before the closing
brace, so the second output differs from the first. -/
theorem processContent_not_idempotent :
    processContent "interface A \x7b x: string \x7d".toList defaultSortConfig =
        "interface A \x7b\n x: string \n\x7d\n".toList ∧
      processContent "interface A \x7b\n x: string \n\x7d\n".toList defaultSortConfig =
        "interface A \x7b\n x: string \n\n\x7d\n".toList ∧
      processContent
          (processContent "interface A \x7b x: string \x7d".toList defaultSortConfig)
          defaultSortConfig ≠
        processContent "interface A \x7b x: string \x7d".toList defaultSortConfig := by
  refine ⟨by decide, by decide, ?_⟩
  decide

/-- Claim C9: on the member list `["b: string;", "aaaaaaaa: number;"]`
the structured-member sort places `b: string;` first in `length` mode
(shorter collapsed text wins) and `aaaaaaaa: number;` first in
`alphabetical` mode (case-insensitive locale comparison of the first
non-blank lines), with the comparator signs to match. -/
theorem sortStructuredMembers_mode_order :
    sortStructuredMembers "b: string;\naaaaaaaa: number;".toList defaultSortConfig =
        ["b: string;".toList, "aaaaaaaa: number;".toList] ∧
      sortStructuredMembers "b: string;\naaaaaaaa: number;".toList
          { defaultSortConfig with sortMode := .alphabetical } =
        ["aaaaaaaa: number;".toList, "b: string;".toList] ∧
      compareStrings "b: string;".toList "aaaaaaaa: number;".toList .length < 0 ∧
      compareStrings "b: string;".toList "aaaaaaaa: number;".toList .alphabetical > 0 := by
  refine ⟨by decide, by decide, by decide, by decide⟩

/-- Claim C2: for a parsed non-side-effect import whose (normalised)
source path is `s`, `getImportGroup` follows the claimed terminal
decision order — styles by case-insensitive extension suffix, then
react, then alias prefix, then relative, then external libraries, with
the absolute-group fallback — here stated against `c2Classify`, the
decision list written from the claim (the configured extension set is
lowercased by the configuration normaliser, which the first hypothesis
records). -/
theorem getImportGroup_decision_order (block : Str) (c : SortConfig) (s : Str)
    (hlower : ∀ ext ∈ c.styleExtensions, toLowerStr ext = ext)
    (hsrc : getImportSource (trimJS (collapseWs block)) = some s)
    (hside : isSideEffectImport (trimJS (collapseWs block)) = false) :
    getImportGroup block c = some (c2Classify s c) := by
  unfold getImportGroup c2Classify isExternalLib
  simp only [hsrc, hside, Bool.false_eq_true, if_false,
    styleAny_lower_eq s c.styleExtensions hlower,
    apply_ite (f := some (α := ImportGroupKey))]

/-- Claim C2 witness: `./y` in `import x from './y'` classifies via the
claimed decision list, landing in the relative group. -/
theorem getImportGroup_decision_order_witness :
    getImportGroup "import x from './y'".toList defaultSortConfig =
        some (c2Classify "./y".toList defaultSortConfig) ∧
      c2Classify "./y".toList defaultSortConfig = .relative :=
  ⟨getImportGroup_decision_order _ _ _ (by decide) (by decide) (by decide), by decide⟩

/-- Claim C5: for an import with a named-specifier list, when the
single-line rendering is exactly `maxLineLength` characters the
formatter emits it single-line, and when it is one character longer it
wraps the named block into one line per specifier, each prefixed by
the configured indent and each — the last included — followed by a
trailing comma. -/
theorem formatImportBlock_wrap_boundary (block : Str) (c : SortConfig)
    (pi : ParsedImportBlock) (cl : Str) (o cIdx : Nat)
    (hparse : parseImportBlock (trimJS (collapseWs block)) = some pi)
    (hclause : pi.importClause = some cl)
    (hrange : findNamedImportsRange cl = some (o, cIdx))
    (himp : namedImportsOf cl o cIdx c ≠ []) :
    ((singleLineRender pi cl o cIdx c).length = c.maxLineLength →
        formatImportBlock block c = singleLineRender pi cl o cIdx c) ∧
      ((singleLineRender pi cl o cIdx c).length = c.maxLineLength + 1 →
        formatImportBlock block c =
          importKeywordOf pi.isTypeOnly ++ [' '] ++
            joinSep ", ".toList
              (filterTruthy [stripTrailingComma (trimJS (cl.take o)),
                joinNL (["\x7b".toList] ++
                  ((namedImportsOf cl o cIdx c).map fun sp => c.indent ++ sp ++ [',']) ++
                  ["\x7d".toList]),
                trimJS (cl.drop (cIdx + 1))]) ++
            " from ".toList ++ [pi.quote] ++ pi.source ++ [pi.quote] ++
            (if pi.hasSemicolon then [';'] else [])) := by
  unfold formatImportBlock
  simp only [hparse, hclause, hrange]
  rw [show (jsSort
      (fun a b =>
        compareStrings (getNamedImportSortKey a c.sortMode)
          (getNamedImportSortKey b c.sortMode) c.sortMode)
      (parseNamedImports ((cl.drop (o + 1)).take (cIdx - (o + 1))))).map (·.raw) =
    namedImportsOf cl o cIdx c from rfl]
  rw [if_neg (by simpa using himp)]
  constructor
  · intro hlen
    rw [if_neg (by rw [show importKeywordOf pi.isTypeOnly ++ [' '] ++
        joinSep ", ".toList
          (filterTruthy [stripTrailingComma (trimJS (cl.take o)),
            "\x7b ".toList ++ joinSep ", ".toList (namedImportsOf cl o cIdx c) ++
              " \x7d".toList,
            trimJS (cl.drop (cIdx + 1))]) ++ " from ".toList ++ [pi.quote] ++ pi.source ++
          [pi.quote] ++ (if pi.hasSemicolon then [';'] else []) =
        singleLineRender pi cl o cIdx c from rfl, hlen]; omega)]
    exact (rfl : _ = singleLineRender pi cl o cIdx c)
  · intro hlen
    rw [if_pos (by rw [show importKeywordOf pi.isTypeOnly ++ [' '] ++
        joinSep ", ".toList
          (filterTruthy [stripTrailingComma (trimJS (cl.take o)),
            "\x7b ".toList ++ joinSep ", ".toList (namedImportsOf cl o cIdx c) ++
              " \x7d".toList,
            trimJS (cl.drop (cIdx + 1))]) ++ " from ".toList ++ [pi.quote] ++ pi.source ++
          [pi.quote] ++ (if pi.hasSemicolon then [';'] else []) =
        singleLineRender pi cl o cIdx c from rfl, hlen]; omega)]
    rw [wrapJoinEq c.indent (namedImportsOf cl o cIdx c) himp]

/-- Claim C5 witness: `import \x7b b, a \x7d from 'x';` renders to 25
characters single-line; at `maxLineLength = 25` it stays single-line
and at `maxLineLength = 24` it wraps with a trailing comma on every
specifier. -/
theorem formatImportBlock_wrap_boundary_witness :
    formatImportBlock "import \x7b b, a \x7d from 'x';".toList
        { defaultSortConfig with maxLineLength := 25 } =
      "import \x7b a, b \x7d from 'x';".toList ∧
    formatImportBlock "import \x7b b, a \x7d from 'x';".toList
        { defaultSortConfig with maxLineLength := 24 } =
      "import \x7b\n  a,\n  b,\n\x7d from 'x';".toList :=
  ⟨((formatImportBlock_wrap_boundary _ { defaultSortConfig with maxLineLength := 25 }
        ⟨"x".toList, '\'', some "\x7b b, a \x7d".toList, false, true⟩
        "\x7b b, a \x7d".toList 0 7 (by decide) (by decide) (by decide) (by decide)).1
      (by decide)).trans (by decide),
   ((formatImportBlock_wrap_boundary _ { defaultSortConfig with maxLineLength := 24 }
        ⟨"x".toList, '\'', some "\x7b b, a \x7d".toList, false, true⟩
        "\x7b b, a \x7d".toList 0 7 (by decide) (by decide) (by decide) (by decide)).2
      (by decide)).trans (by decide)⟩

/-- A smaller starting run keeps `noTripleGo` satisfied. -/
theorem noTripleGo_mono (s : Str) :
    ∀ j j' : Nat, j' ≤ j → noTripleGo j s = true → noTripleGo j' s = true := by
  induction s with
  | nil => intro _ _ _ _; rfl
  | cons c rest ih =>
    intro j j' hle h
    by_cases hc : c = '\n'
    · subst hc
      simp only [noTripleGo, if_pos rfl] at h ⊢
      by_cases hj : j + 1 ≥ 3
      · rw [if_pos hj] at h
        exact absurd h (by simp)
      · rw [if_neg hj] at h
        rw [if_neg (show ¬ j' + 1 ≥ 3 by omega)]
        exact ih (j + 1) (j' + 1) (by omega) h
    · simp only [noTripleGo, if_neg hc] at h ⊢
      exact h

/-- Short newline runs satisfy `noTripleGo`. -/
theorem noTripleGo_replicate (k : Nat) (hk : k ≤ 2) :
    noTripleGo 0 (List.replicate k '\n') = true := by
  interval_cases k <;> decide

/-- A short newline run followed by a non-newline character reduces
`noTripleGo` to the remainder. -/
theorem noTripleGo_replicate_cons (k : Nat) (hk : k ≤ 2) (c : Char) (X : Str)
    (hc : ¬ c = '\n') :
    noTripleGo 0 (List.replicate k '\n' ++ c :: X) = noTripleGo 0 X := by
  interval_cases k <;> simp [noTripleGo, if_neg hc]

/-- The newline-collapsing substitution leaves no run of three. -/
theorem noTriple_collapseNLGo (s : Str) :
    ∀ run, noTripleGo 0 (collapseNLGo run s) = true := by
  induction s with
  | nil =>
    intro run
    simp only [collapseNLGo]
    exact noTripleGo_replicate _ (by omega)
  | cons c rest ih =>
    intro run
    by_cases hc : c = '\n'
    · subst hc
      simp only [collapseNLGo]
      exact ih (run + 1)
    · simp only [collapseNLGo, if_neg hc]
      rw [noTripleGo_replicate_cons _ (by omega) _ _ hc]
      exact ih 0

/-- `noTriple` holds of every `collapseNL` image. -/
theorem noTriple_collapseNL (s : Str) : noTriple (collapseNL s) = true :=
  noTriple_collapseNLGo s 0

/-- `noTripleGo` restricts to the left part of an append. -/
theorem noTripleGo_append_right (b : Str) :
    ∀ (a : Str) (j : Nat), noTripleGo j (a ++ b) = true → noTripleGo j a = true := by
  intro a
  induction a with
  | nil => intro _ _; rfl
  | cons c rest ih =>
    intro j h
    by_cases hc : c = '\n'
    · subst hc
      simp only [List.cons_append, noTripleGo, if_pos rfl] at h ⊢
      by_cases hj : j + 1 ≥ 3
      · rw [if_pos hj] at h
        exact absurd h (by simp)
      · rw [if_neg hj] at h
        rw [if_neg hj]
        exact ih _ h
    · simp only [List.cons_append, noTripleGo, if_neg hc] at h ⊢
      exact ih _ h

/-- `noTripleGo` passes to the right part of an append (resetting the
run counter). -/
theorem noTripleGo_append_left (b : Str) :
    ∀ (a : Str) (j : Nat), noTripleGo j (a ++ b) = true → noTripleGo 0 b = true := by
  intro a
  induction a with
  | nil => intro j h; exact noTripleGo_mono b j 0 (by omega) h
  | cons c rest ih =>
    intro j h
    by_cases hc : c = '\n'
    · subst hc
      simp only [List.cons_append, noTripleGo, if_pos rfl] at h
      by_cases hj : j + 1 ≥ 3
      · rw [if_pos hj] at h
        exact absurd h (by simp)
      · rw [if_neg hj] at h
        exact ih _ h
    · simp only [List.cons_append, noTripleGo, if_neg hc] at h
      exact ih _ h

/-- The head surviving a `dropWhile` falsifies the predicate. -/
theorem head?_dropWhile_not {α : Type} (p : α → Bool) :
    ∀ (l : List α) (c : α), (l.dropWhile p).head? = some c → p c = false := by
  intro l
  induction l with
  | nil => intro c h; simp [List.dropWhile] at h
  | cons a rest ih =>
    intro c h
    by_cases ha : p a
    · rw [List.dropWhile_cons_of_pos ha] at h
      exact ih c h
    · rw [List.dropWhile_cons_of_neg ha] at h
      simp only [List.head?_cons, Option.some.injEq] at h
      subst h
      exact Bool.of_not_eq_true ha

/-- Right-trimming splits the string into the trimmed prefix and the
removed whitespace. -/
theorem trimRightJS_append (t : Str) :
    trimRightJS t ++ (t.reverse.takeWhile isWsChar).reverse = t := by
  unfold trimRightJS
  rw [← List.reverse_append, List.takeWhile_append_dropWhile, List.reverse_reverse]

/-- `trim` preserves the absence of triple newlines. -/
theorem noTriple_trimJS (s : Str) (hs : noTriple s = true) : noTriple (trimJS s) = true := by
  have h1 : noTriple (trimLeftJS s) = true := by
    refine noTripleGo_append_left (trimLeftJS s) (s.takeWhile isWsChar) 0 ?_
    show noTripleGo 0 (s.takeWhile isWsChar ++ s.dropWhile isWsChar) = true
    rw [List.takeWhile_append_dropWhile]
    exact hs
  show noTripleGo 0 (trimRightJS (trimLeftJS s)) = true
  exact noTripleGo_append_right ((trimLeftJS s).reverse.takeWhile isWsChar).reverse
    (trimRightJS (trimLeftJS s)) 0 (by rw [trimRightJS_append]; exact h1)

/-- Appending one newline to a string whose last character is not a
newline cannot create a triple run. -/
theorem noTripleGo_append_one_nl :
    ∀ (a : Str) (j : Nat), a ≠ [] → noTripleGo j a = true →
      (∀ c', a.getLast? = some c' → ¬ c' = '\n') → noTripleGo j (a ++ ['\n']) = true := by
  intro a
  induction a with
  | nil => intro _ h _ _; exact absurd rfl h
  | cons c rest ih =>
    intro j _ h hlast
    cases rest with
    | nil =>
      have hc : ¬ c = '\n' := hlast c rfl
      simp [noTripleGo, if_neg hc]
    | cons b t =>
      have hlast' : ∀ c', (b :: t).getLast? = some c' → ¬ c' = '\n' := by
        intro c' hc'
        exact hlast c' (by rw [List.getLast?_cons_cons]; exact hc')
      by_cases hc : c = '\n'
      · subst hc
        simp only [noTripleGo, List.cons_append, if_pos rfl] at h ⊢
        by_cases hj : j + 1 ≥ 3
        · rw [if_pos hj] at h
          exact absurd h (by simp)
        · rw [if_neg hj] at h
          rw [if_neg hj]
          exact ih (j + 1) (by simp) h hlast'
      · simp only [noTripleGo, List.cons_append, if_neg hc] at h ⊢
        exact ih 0 (by simp) h hlast'

/-- The last character surviving a right trim is not whitespace. -/
theorem trimRightJS_getLast_not_ws (t : Str) (c' : Char)
    (h : (trimRightJS t).getLast? = some c') : isWsChar c' = false := by
  have hrev : (trimRightJS t).reverse = t.reverse.dropWhile isWsChar := by
    unfold trimRightJS
    rw [List.reverse_reverse]
  have hhead : (t.reverse.dropWhile isWsChar).head? = some c' := by
    rw [← hrev, List.head?_reverse]
    exact h
  exact head?_dropWhile_not isWsChar t.reverse c' hhead

/-- A trimmed string followed by one newline never ends in two. -/
theorem endsWith_two_nl_false (z : Str) :
    endsWithS (trimJS z ++ ['\n']) ['\n', '\n'] = false := by
  unfold endsWithS
  rw [List.reverse_append]
  show startsWithS ('\n' :: (trimJS z).reverse) ['\n', '\n'].reverse = false
  show startsWithS ('\n' :: (trimJS z).reverse) ['\n', '\n'] = false
  unfold startsWithS
  simp only [decide_eq_true_eq, Bool.true_and, if_pos rfl]
  cases hrev : (trimJS z).reverse with
  | nil => rfl
  | cons d t =>
    unfold startsWithS
    have hd : isWsChar d = false := by
      refine trimRightJS_getLast_not_ws (trimLeftJS z) d ?_
      show (trimJS z).getLast? = some d
      rw [← List.head?_reverse, hrev, List.head?_cons]
    have : ¬ d = '\n' := by
      intro hdn
      subst hdn
      simp [isWsChar] at hd
    simp [startsWithS, this]

/-- `buildResult` always renders as `trim(collapse(X)) ++ '\n'`. -/
theorem buildResult_form (lines : List Str) (startIdx : Nat) (groups : ImportGroups)
    (c : SortConfig) :
    ∃ X, buildResult lines startIdx groups c = trimJS (collapseNL X) ++ ['\n'] :=
  ⟨_, rfl⟩

/-- Claim C8: for every input text and configuration the rendered
output contains no run of three or more consecutive newlines and ends
with exactly one trailing newline (its last character is a newline and
it does not end in two). -/
theorem processContent_newline_discipline (content : Str) (c : SortConfig) :
    noTriple (processContent content c) = true ∧
      (processContent content c).getLast? = some '\n' ∧
      endsWithS (processContent content c) ['\n', '\n'] = false := by
  obtain ⟨X, hX⟩ : ∃ X, processContent content c = trimJS (collapseNL X) ++ ['\n'] := ⟨_, rfl⟩
  rw [hX]
  refine ⟨?_, List.getLast?_concat _, endsWith_two_nl_false _⟩
  by_cases hempty : trimJS (collapseNL X) = []
  · rw [hempty]
    decide
  · refine noTripleGo_append_one_nl _ 0 hempty
      (noTriple_trimJS _ (noTriple_collapseNL X)) ?_
    intro c' hc' hcn
    subst hcn
    have := trimRightJS_getLast_not_ws (trimLeftJS (collapseNL X)) '\n' hc'
    simp [isWsChar] at this

/-- The directive pass is the file-order `filterMap`/`map` of the
per-line directive match. -/
theorem processDirectivesGo_spec :
    ∀ (ls dirs out : List Str),
      processDirectivesGo dirs out ls =
        (dirs ++ ls.filterMap (fun l => (matchDirective (trimJS l)).map
            fun d => ['\''] ++ d ++ ['\'', ';']),
         out ++ ls.map fun l => if (matchDirective (trimJS l)).isSome then [] else l) := by
  intro ls
  induction ls with
  | nil => intro dirs out; simp [processDirectivesGo]
  | cons l rest ih =>
    intro dirs out
    cases hm : matchDirective (trimJS l) with
    | none => simp [processDirectivesGo, hm, ih]
    | some d => simp [processDirectivesGo, hm, ih]

/-- Claim C10: every line whose trimmed text matches the directive
pattern — any quote characters, optional trailing dot and/or
semicolon, case-insensitive — is emitted in the directives bucket as
the captured text wrapped in single quotes with exactly one trailing
semicolon, in file order, and the matched source line is replaced by
an empty line in the buffer handed to classification. -/
theorem processDirectives_rewrites_and_blanks (lines : List Str) :
    (processDirectives lines).1 =
        lines.filterMap (fun l => (matchDirective (trimJS l)).map
          fun d => ['\''] ++ d ++ ['\'', ';']) ∧
      (processDirectives lines).2.1 =
        lines.map fun l => if (matchDirective (trimJS l)).isSome then [] else l := by
  unfold processDirectives
  rw [processDirectivesGo_spec lines [] []]
  exact ⟨by simp, by simp⟩

/-- Keys distribute over appends of order items. -/
theorem keysOf_append (a b : List GroupOrderItem) : keysOf (a ++ b) = keysOf a ++ keysOf b := by
  unfold keysOf
  exact List.filterMap_append a b _

/-- The `normalizeGroupsOrder` loop: the used-set tracks the emitted
keys, and the emitted keys are the first occurrences of the valid
trimmed identifiers. -/
theorem normGroups_fold_spec :
    ∀ (gs : List Str) (res : List GroupOrderItem) (used : List GroupKey),
      used = keysOf res →
      (gs.foldl normGroupsStep (res, used)).2 =
          keysOf (gs.foldl normGroupsStep (res, used)).1 ∧
        keysOf (gs.foldl normGroupsStep (res, used)).1 =
          ((gs.map trimJS).filterMap groupKeyOfString).foldl
            (fun acc k => if acc.contains k then acc else acc ++ [k]) (keysOf res) := by
  intro gs
  induction gs with
  | nil => intro res used h; exact ⟨h, rfl⟩
  | cons g rest ih =>
    intro res used h
    rw [List.foldl_cons]
    by_cases hsp : trimJS g = "spacing".toList
    · have hkey : groupKeyOfString (trimJS g) = none := by rw [hsp]; decide
      have hfm : (List.map trimJS (g :: rest)).filterMap groupKeyOfString =
          (List.map trimJS rest).filterMap groupKeyOfString := by
        simp [List.map_cons, List.filterMap_cons, hkey]
      rw [hfm]
      by_cases hpush : res.length > 0 ∧ ¬ res.getLast? = some GroupOrderItem.separator
      · have hstep : normGroupsStep (res, used) g = (res ++ [.separator], used) := by
          unfold normGroupsStep
          rw [if_pos hsp,
            if_pos (by simp only [Bool.and_eq_true, decide_eq_true_eq]; exact hpush)]
        have hksep : keysOf (res ++ [GroupOrderItem.separator]) = keysOf res := by
          rw [keysOf_append]; simp [keysOf]
        rw [hstep]
        obtain ⟨ih1, ih2⟩ := ih (res ++ [.separator]) used (by rw [hksep]; exact h)
        exact ⟨ih1, by rw [ih2, hksep]⟩
      · have hstep : normGroupsStep (res, used) g = (res, used) := by
          unfold normGroupsStep
          rw [if_pos hsp,
            if_neg (by simp only [Bool.and_eq_true, decide_eq_true_eq]; exact hpush)]
        rw [hstep]
        exact ih res used h
    · cases hkey : groupKeyOfString (trimJS g) with
      | none =>
        have hfm : (List.map trimJS (g :: rest)).filterMap groupKeyOfString =
            (List.map trimJS rest).filterMap groupKeyOfString := by
          simp [List.map_cons, List.filterMap_cons, hkey]
        rw [hfm]
        have hstep : normGroupsStep (res, used) g = (res, used) := by
          simp only [normGroupsStep, hkey]
          rw [if_neg hsp]
        rw [hstep]
        exact ih res used h
      | some k =>
        have hfm : (List.map trimJS (g :: rest)).filterMap groupKeyOfString =
            k :: (List.map trimJS rest).filterMap groupKeyOfString := by
          simp [List.map_cons, List.filterMap_cons, hkey]
        rw [hfm, List.foldl_cons]
        by_cases hused : used.contains k = true
        · have hstep : normGroupsStep (res, used) g = (res, used) := by
            simp only [normGroupsStep, hkey]
            rw [if_neg hsp, if_pos hused]
          have hcontains : (keysOf res).contains k = true := by rw [← h]; exact hused
          rw [hstep, if_pos hcontains]
          exact ih res used h
        · have hstep : normGroupsStep (res, used) g =
              (res ++ [.group k], used ++ [k]) := by
            simp only [normGroupsStep, hkey]
            rw [if_neg hsp, if_neg hused]
          have hcontains : ¬ (keysOf res).contains k = true := by rw [← h]; exact hused
          have hkkey : keysOf (res ++ [GroupOrderItem.group k]) = keysOf res ++ [k] := by
            rw [keysOf_append]; simp [keysOf]
          rw [hstep, if_neg hcontains]
          obtain ⟨ih1, ih2⟩ := ih (res ++ [.group k]) (used ++ [k])
            (by rw [hkkey, h])
          exact ⟨ih1, by rw [ih2, hkkey]⟩

/-- Keys pass through `reverse`. -/
theorem keysOf_reverse (l : List GroupOrderItem) : keysOf l.reverse = (keysOf l).reverse := by
  unfold keysOf
  exact List.filterMap_reverse _ l

/-- Keys of wrapped group keys. -/
theorem keysOf_map_group (xs : List GroupKey) : keysOf (xs.map .group) = xs := by
  unfold keysOf
  induction xs with
  | nil => rfl
  | cons a t ih => simp only [List.map_cons, List.filterMap_cons, ih]

/-- Trimming trailing separators does not change the keys. -/
theorem keysOf_dropTrailingSeps (l : List GroupOrderItem) :
    keysOf (dropTrailingSeps l) = keysOf l := by
  have hkt : keysOf (l.reverse.takeWhile fun x => x == GroupOrderItem.separator) = [] := by
    unfold keysOf
    rw [List.filterMap_eq_nil_iff]
    intro a ha
    have hsep : a = GroupOrderItem.separator := by simpa using List.mem_takeWhile_imp ha
    subst hsep
    rfl
  have hsplit : keysOf (l.reverse.dropWhile fun x => x == GroupOrderItem.separator) =
      (keysOf l).reverse := by
    rw [show (keysOf l).reverse = keysOf l.reverse from (keysOf_reverse l).symm]
    conv_rhs =>
      rw [← List.takeWhile_append_dropWhile (fun x => x == GroupOrderItem.separator) l.reverse]
    rw [keysOf_append, hkt, List.nil_append]
  unfold dropTrailingSeps
  rw [keysOf_reverse, hsplit, List.reverse_reverse]

/-- After trimming, the order cannot end in a separator. -/
theorem dropTrailingSeps_getLast (l : List GroupOrderItem) :
    ¬ (dropTrailingSeps l).getLast? = some GroupOrderItem.separator := by
  unfold dropTrailingSeps
  intro h
  rw [← List.head?_reverse, List.reverse_reverse] at h
  have := head?_dropWhile_not (fun x => x == GroupOrderItem.separator) l.reverse _ h
  simp at this

/-- The first-occurrence fold makes no duplicates. -/
theorem firstOccursAux_nodup :
    ∀ (l acc : List GroupKey), acc.Nodup →
      (l.foldl (fun acc k => if acc.contains k then acc else acc ++ [k]) acc).Nodup := by
  intro l
  induction l with
  | nil => intro acc h; exact h
  | cons k rest ih =>
    intro acc h
    rw [List.foldl_cons]
    by_cases hc : acc.contains k = true
    · rw [if_pos hc]
      exact ih acc h
    · rw [if_neg hc]
      refine ih _ ?_
      rw [List.nodup_append]
      refine ⟨h, List.nodup_singleton k, ?_⟩
      intro a ha hk
      rw [List.mem_singleton] at hk
      subst hk
      have hk' : ¬ a ∈ acc := by simpa using hc
      exact hk' ha

/-- `firstOccurs` makes no duplicates. -/
theorem firstOccurs_nodup (l : List GroupKey) : (firstOccurs l).Nodup :=
  firstOccursAux_nodup l [] List.nodup_nil

/-- Every group key is a default group key. -/
theorem mem_DEFAULT_GROUP_ORDER (g : GroupKey) : g ∈ DEFAULT_GROUP_ORDER := by
  cases g <;> decide

/-- Claim C7: the normalised group order keeps only the first
occurrence of each valid identifier (in encounter order of the trimmed
input), drops unknown identifiers, appends every omitted group in the
fixed default order, never ends in a separator marker, and mentions
each of the ten group identifiers exactly once (hence at most once). -/
theorem normalizeGroupsOrder_spec (gs : List Str) :
    keysOf (normalizeGroupsOrder gs) =
        firstOccurs ((gs.map trimJS).filterMap groupKeyOfString) ++
          DEFAULT_GROUP_ORDER.filter
            (fun k => !(firstOccurs ((gs.map trimJS).filterMap groupKeyOfString)).contains k) ∧
      ¬ (normalizeGroupsOrder gs).getLast? = some GroupOrderItem.separator ∧
      ∀ g : GroupKey, (keysOf (normalizeGroupsOrder gs)).count g = 1 := by
  obtain ⟨hused, hkeys⟩ := normGroups_fold_spec gs [] [] rfl
  have hmain : keysOf (normalizeGroupsOrder gs) =
      firstOccurs ((gs.map trimJS).filterMap groupKeyOfString) ++
        DEFAULT_GROUP_ORDER.filter
          (fun k => !(firstOccurs ((gs.map trimJS).filterMap groupKeyOfString)).contains k) := by
    unfold normalizeGroupsOrder
    rw [keysOf_dropTrailingSeps, keysOf_append, keysOf_map_group, hkeys, hused, hkeys]
    rfl
  refine ⟨hmain, ?_, ?_⟩
  · unfold normalizeGroupsOrder
    exact dropTrailingSeps_getLast _
  · intro g
    rw [hmain, List.count_append]
    by_cases hm : g ∈ firstOccurs ((gs.map trimJS).filterMap groupKeyOfString)
    · have h1 : (firstOccurs ((gs.map trimJS).filterMap groupKeyOfString)).count g = 1 :=
        List.count_eq_one_of_mem (firstOccurs_nodup _) hm
      have h0 : (DEFAULT_GROUP_ORDER.filter
          (fun k => !(firstOccurs ((gs.map trimJS).filterMap groupKeyOfString)).contains k)).count
            g = 0 := by
        refine List.count_eq_zero_of_not_mem ?_
        intro hb
        have hflt := (List.mem_filter.mp hb).2
        have hnc : ¬ g ∈ firstOccurs ((gs.map trimJS).filterMap groupKeyOfString) := by
          simpa using hflt
        exact hnc hm
      rw [h1, h0]
    · have h0 : (firstOccurs ((gs.map trimJS).filterMap groupKeyOfString)).count g = 0 :=
        List.count_eq_zero_of_not_mem hm
      have h1 : (DEFAULT_GROUP_ORDER.filter
          (fun k => !(firstOccurs ((gs.map trimJS).filterMap groupKeyOfString)).contains k)).count
            g = 1 := by
        refine List.count_eq_one_of_mem ((by decide : DEFAULT_GROUP_ORDER.Nodup).filter _) ?_
        exact List.mem_filter.mpr ⟨mem_DEFAULT_GROUP_ORDER g, by simpa using hm⟩
      rw [h0, h1]

/-- Concatenating join distributes over a final element. -/
theorem joinSepNil_append_single : ∀ (xs : List Str) (y : Str),
    joinSep [] (xs ++ [y]) = joinSep [] xs ++ y := by
  intro xs
  induction xs with
  | nil => intro y; simp [joinSep]
  | cons a rest ih =>
    intro y
    cases rest with
    | nil => simp [joinSep]
    | cons b t =>
      show a ++ [] ++ joinSep [] ((b :: t) ++ [y]) = a ++ [] ++ joinSep [] (b :: t) ++ y
      rw [ih y]
      simp [List.append_assoc]

/-- `buildResult` with a non-empty remainder: the remainder (the lines
from the stop index, joined and trimmed) is rendered as the final
segment, and the whole output then passes once through the
newline-collapsing and trimming normalisation plus the final newline. -/
theorem buildResult_remainder (lines : List Str) (startIdx : Nat) (groups : ImportGroups)
    (c : SortConfig) (h : trimJS (joinNL (lines.drop startIdx)) ≠ []) :
    ∃ p, buildResult lines startIdx groups c =
      trimJS (collapseNL (p ++ trimJS (joinNL (lines.drop startIdx)))) ++ ['\n'] := by
  refine ⟨joinSep []
    (if (buildResultFold groups c).1.length > 0 then
      (buildResultFold groups c).1 ++
        [if (buildResultFold groups c).2 then "\n\n".toList else ['\n']]
     else (buildResultFold groups c).1), ?_⟩
  show trimJS (collapseNL (joinSep []
      (if trimJS (joinNL (lines.drop startIdx)) ≠ [] then
        (if (buildResultFold groups c).1.length > 0 then
          (buildResultFold groups c).1 ++
            [if (buildResultFold groups c).2 then "\n\n".toList else ['\n']]
         else (buildResultFold groups c).1) ++ [trimJS (joinNL (lines.drop startIdx))]
       else (buildResultFold groups c).1))) ++ ['\n'] = _
  rw [if_pos h, joinSepNil_append_single]

set_option maxRecDepth 400000 in
/-- Claim C4, counterexample: on
`import 'a';` + `const x = \x7b` + `foo` + two blank lines + `bar` the
function-block collector signals incomplete at line 1, the walk stops
there, yet the text from that line onward is NOT appended
byte-for-byte: its blank-line run is collapsed, so it occurs nowhere
in the output. -/
theorem processImports_remainder_not_verbatim :
    collectFunctionBlock
        (processDirectives (splitLinesJS
          "import 'a';\nconst x = \x7b\nfoo\n\n\nbar".toList)).2.1 1 = none ∧
      (collectedGroups "import 'a';\nconst x = \x7b\nfoo\n\n\nbar".toList
          defaultSortConfig).2 = 1 ∧
      hasSub
          (processContent "import 'a';\nconst x = \x7b\nfoo\n\n\nbar".toList
            defaultSortConfig)
          "const x = \x7b\nfoo\n\n\nbar".toList = false := by
  refine ⟨by decide, by decide, by decide⟩

/-- Claim C4 as amended: when the leading-region walk stops at index
`i` (in particular when a collector signals incomplete there), the
whole tail of the directive-blanked line buffer from line `i` onward
is rendered as the final segment of the output, in original order and
untouched except by the output-wide normalisation — trimming of
surrounding whitespace, collapsing of runs of three or more newlines
to a blank line, and the final newline. -/
theorem processContent_remainder_normalized (content : Str) (c : SortConfig)
    (h : trimJS (joinNL ((processDirectives (splitLinesJS content)).2.1.drop
        (collectedGroups content c).2)) ≠ []) :
    ∃ p, processContent content c =
      trimJS (collapseNL (p ++ trimJS (joinNL
        ((processDirectives (splitLinesJS content)).2.1.drop
          (collectedGroups content c).2)))) ++ ['\n'] := by
  have hpc : processContent content c =
      buildResult (processDirectives (splitLinesJS content)).2.1
        (collectedGroups content c).2 (collectedGroups content c).1 c := rfl
  rw [hpc]
  exact buildResult_remainder _ _ _ _ h

set_option maxRecDepth 400000 in
/-- Claim C4 witness: the amended statement at the counterexample
input. -/
theorem processContent_remainder_normalized_witness :
    ∃ p, processContent "import 'a';\nconst x = \x7b\nfoo\n\n\nbar".toList
        defaultSortConfig =
      trimJS (collapseNL (p ++ trimJS (joinNL
        ((processDirectives (splitLinesJS
            "import 'a';\nconst x = \x7b\nfoo\n\n\nbar".toList)).2.1.drop
          (collectedGroups "import 'a';\nconst x = \x7b\nfoo\n\n\nbar".toList
            defaultSortConfig).2)))) ++ ['\n'] :=
  processContent_remainder_normalized _ _ (by decide)

/-- The import collector never moves the cursor backwards. -/
theorem collectImportBlockGo_le :
    ∀ (ls acc : List Str) (idx : Nat) (r : BlockCollectionResult),
      collectImportBlockGo acc idx ls = some r → idx ≤ r.nextIdx := by
  intro ls
  induction ls with
  | nil =>
    intro acc idx r h
    exact absurd h (by simp [collectImportBlockGo])
  | cons l rest ih =>
    intro acc idx r h
    simp only [collectImportBlockGo] at h
    split at h
    · cases h
      simp only []
      omega
    · split at h
      · exact absurd h (by simp)
      · split at h
        · exact absurd h (by simp)
        · have := ih (acc ++ [l]) (idx + 1) r h
          omega

/-- The brace collector never moves the cursor backwards. -/
theorem collectBraceBlockGo_le :
    ∀ (ls : List Str) (block : Str) (idx : Nat) (count : Int) (found : Bool)
      (r : BlockCollectionResult),
      collectBraceBlockGo block idx count found ls = some r → idx ≤ r.nextIdx := by
  intro ls
  induction ls with
  | nil =>
    intro block idx count found r h
    exact absurd h (by simp [collectBraceBlockGo])
  | cons l rest ih =>
    intro block idx count found r h
    rw [collectBraceBlockGo] at h
    split at h
    · cases h
      simp only []
      omega
    · have := ih _ (idx + 1) _ _ r h
      omega

/-- The type collector never moves the cursor backwards. -/
theorem collectTypeBlockGo_le :
    ∀ (ls acc : List Str) (idx : Nat) (st : Int × Int × Int) (r : BlockCollectionResult),
      collectTypeBlockGo acc idx st ls = some r → idx ≤ r.nextIdx := by
  intro ls
  induction ls with
  | nil =>
    intro acc idx st r h
    exact absurd h (by simp [collectTypeBlockGo])
  | cons l rest ih =>
    intro acc idx st r h
    rw [collectTypeBlockGo] at h
    split at h
    · cases h
      simp only []
      omega
    · have := ih _ (idx + 1) _ r h
      omega

/-- The function collector never moves the cursor backwards. -/
theorem collectFunctionBlock_le (lines : List Str) (startIdx : Nat)
    (r : BlockCollectionResult) (h : collectFunctionBlock lines startIdx = some r) :
    startIdx ≤ r.nextIdx := by
  rw [collectFunctionBlock] at h
  split at h
  · exact absurd h (by simp)
  · simp only [] at h
    split at h
    · cases h
      simp only []
      omega
    · split at h
      · exact absurd h (by simp)
      · exact collectBraceBlockGo_le _ _ _ _ _ r h

/-- The classifier never touches the comments bucket. -/
theorem classifyImport_comments (block : Str) (groups : ImportGroups) (c : SortConfig) :
    (classifyImport block groups c).comments = groups.comments := by
  unfold classifyImport
  cases getImportGroup block c with
  | none => rfl
  | some k => cases k <;> rfl

/-- A strictly larger index can be appended to a strictly increasing
comment list. -/
theorem commentsChain_append (l : List CommentEntry) (x : CommentEntry)
    (hc : l.Chain' fun a b => a.originalIndex < b.originalIndex)
    (hb : ∀ e ∈ l, e.originalIndex < x.originalIndex) :
    (l ++ [x]).Chain' fun a b => a.originalIndex < b.originalIndex := by
  rw [List.chain'_append]
  refine ⟨hc, List.chain'_singleton x, ?_⟩
  intro a ha y hy
  simp only [List.head?_cons, Option.mem_def, Option.some.injEq] at hy
  subst hy
  exact hb a (List.mem_of_mem_getLast? ha)

/-- A stable sort leaves an already weakly-increasing list unchanged. -/
theorem jsSortLe_eq_self {α : Type} (le : α → α → Bool) :
    ∀ l : List α, l.Chain' (fun a b => le a b = true) → jsSortLe le l = l := by
  intro l
  induction l with
  | nil => intro _; rfl
  | cons a rest ih =>
    intro h
    rw [jsSortLe, ih h.tail]
    cases rest with
    | nil => rfl
    | cons b t =>
      simp only [jsInsert]
      rw [if_pos (List.chain'_cons.mp h).1]

/-- Along the leading-region walk the comments bucket stays strictly
increasing in original index, every recorded index staying below the
cursor. -/
theorem processImportsGo_comments_chain (lines : List Str) (c : SortConfig) :
    ∀ (fuel idx : Nat) (groups : ImportGroups),
      (∀ e ∈ groups.comments, e.originalIndex < idx) →
      groups.comments.Chain' (fun a b => a.originalIndex < b.originalIndex) →
      (processImportsGo lines c fuel idx groups).1.comments.Chain'
        (fun a b => a.originalIndex < b.originalIndex) := by
  intro fuel
  induction fuel with
  | zero => intro idx groups _ hc; exact hc
  | succ fuel ih =>
    intro idx groups hb hc
    rw [processImportsGo]
    cases hline : lines.get? idx with
    | none => exact hc
    | some rawLine =>
      simp only []
      split
      · exact ih (idx + 1) groups (fun e he => by have := hb e he; omega) hc
      · split
        · refine ih (idx + 1) _ ?_ ?_
          · intro e he
            rcases List.mem_append.mp he with hm | hm
            · have := hb e hm; omega
            · rw [List.mem_singleton] at hm
              subst hm
              show idx < idx + 1
              omega
          · exact commentsChain_append _ _ hc hb
        · split
          · split
            · exact hc
            · rename_i r heq
              refine ih r.nextIdx _ ?_ hc
              intro e he
              have hle := collectBraceBlockGo_le (lines.drop idx) [] idx 0 false r heq
              have := hb e he
              omega
          · split
            · split
              · exact hc
              · rename_i r heq
                refine ih r.nextIdx _ ?_ hc
                intro e he
                have hle := collectTypeBlockGo_le (lines.drop idx) [] idx (0, 0, 0) r heq
                have := hb e he
                omega
            · split
              · split
                · exact hc
                · rename_i r heq
                  refine ih r.nextIdx _ ?_ hc
                  intro e he
                  have hle := collectFunctionBlock_le lines idx r heq
                  have := hb e he
                  omega
              · split
                · exact hc
                · split
                  · exact hc
                  · rename_i r heq
                    refine ih r.nextIdx _ ?_ ?_
                    · intro e he
                      rw [classifyImport_comments] at he
                      have hle := collectImportBlockGo_le (lines.drop idx) [] idx r heq
                      have := hb e he
                      omega
                    · rw [classifyImport_comments]
                      exact hc

/-- Claim C6: comment units are rendered in exactly the order they
were collected from the input — the sort by original index is the
identity on the strictly increasing comments bucket, for every input
text and every configuration (group position and comparator mode are
both arbitrary here). -/
theorem comments_rendered_in_input_order (content : Str) (c : SortConfig) :
    getGroupBlock .comments (collectedGroups content c).1 c =
      if (collectedGroups content c).1.comments.length = 0 then none
      else some (joinNL ((collectedGroups content c).1.comments.map (·.line))) := by
  have hchain : (collectedGroups content c).1.comments.Chain'
      (fun a b => a.originalIndex < b.originalIndex) := by
    refine processImportsGo_comments_chain _ c _ _ _ ?_ ?_
    · intro e he
      exact absurd he (List.not_mem_nil e)
    · exact List.chain'_nil
  have hsort :
      jsSort (fun a b : CommentEntry => (a.originalIndex : Int) - (b.originalIndex : Int))
        (collectedGroups content c).1.comments = (collectedGroups content c).1.comments := by
    refine jsSortLe_eq_self _ _ (hchain.imp ?_)
    intro a b h
    simp only [decide_eq_true_eq]
    omega
  unfold getGroupBlock
  by_cases hlen : (collectedGroups content c).1.comments.length = 0
  · rw [if_pos hlen, if_pos hlen]
  · rw [if_neg hlen, if_neg hlen, hsort]

/-- Every segment produced by the top-level clause splitter is non-empty. -/
theorem splitTopLevelGo_ne_nil (str : Str) :
    ∀ (acc : Str) (bc : Int), ∀ s ∈ splitTopLevelGo acc bc str, s ≠ [] := by
  induction str with
  | nil =>
    intro acc bc s hs
    simp only [splitTopLevelGo] at hs
    split at hs
    · exact absurd hs (List.not_mem_nil s)
    · rename_i hne
      rw [List.mem_singleton] at hs
      subst hs
      exact hne
  | cons c rest ih =>
    intro acc bc s hs
    simp only [splitTopLevelGo] at hs
    split at hs
    · exact ih _ _ s hs
    · split at hs
      · exact ih _ _ s hs
      · split at hs
        · rcases List.mem_append.mp hs with hm | hm
          · split at hm
            · exact absurd hm (List.not_mem_nil s)
            · rename_i hne
              rw [List.mem_singleton] at hm
              subst hm
              exact hne
          · exact ih _ _ s hm
        · exact ih _ _ s hs

/-- The segment loop never records an empty default binding. -/
theorem clauseSegLoop_default_ne_empty :
    ∀ (segs : List Str) (dflt ns : Option Str),
      dflt ≠ some [] → (∀ s ∈ segs, s ≠ []) →
      (clauseSegLoop dflt ns segs).defaultImport ≠ some [] := by
  intro segs
  induction segs with
  | nil =>
    intro dflt ns hd _
    exact hd
  | cons seg rest ih =>
    intro dflt ns hd hall
    simp only [clauseSegLoop]
    split
    · split
      · decide
      · exact ih dflt (some seg) hd fun s hs => hall s (List.mem_cons_of_mem _ hs)
    · split
      · decide
      · refine ih (some seg) ns ?_ fun s hs => hall s (List.mem_cons_of_mem _ hs)
        intro h
        rw [Option.some.injEq] at h
        exact hall seg (List.mem_cons_self _ _) h

/-- `parseImportClause` never records an empty default binding. -/
theorem parseImportClause_default_ne_empty (ic : Str) :
    (parseImportClause ic).defaultImport ≠ some [] := by
  simp only [parseImportClause]
  split
  · simp only []
    split
    · exact fun h => Option.noConfusion h
    · rename_i hne
      intro h
      rw [Option.some.injEq] at h
      exact hne h
  · split
    · decide
    · exact clauseSegLoop_default_ne_empty _ none none (fun h => Option.noConfusion h)
        fun s hs => splitTopLevelGo_ne_nil _ _ _ s hs

/-- Nullish coalescing of two non-empty defaults is non-empty. -/
theorem jsNullish_ne_empty (a b : Option Str) (ha : a ≠ some []) (hb : b ≠ some []) :
    jsNullish a b ≠ some [] := by
  cases a with
  | none => exact hb
  | some x => exact ha

/-- If a merge candidate with a non-empty stored default can merge with
an incoming clause carrying a non-empty default, the two defaults are
equal — the conflicting-default guard of `canMergeImportClauses`. -/
theorem canMerge_default_eq (cl pc : ParsedImportClause) (x d : Str)
    (hcd : cl.defaultImport = some x) (hd : pc.defaultImport = some d)
    (hx : x ≠ []) (hdne : d ≠ []) (hcm : canMergeImportClauses cl pc = true) : x = d := by
  by_contra hxd
  have hne : some x ≠ (some d : Option Str) := fun h => hxd (Option.some.inj h)
  simp only [canMergeImportClauses, hcd, hd] at hcm
  rw [if_pos (by simp [jsTruthyOpt, hx, hdne, hne])] at hcm
  exact absurd hcm (by simp)

/-- In-place merging preserves every carried default binding: the found
entry keeps its default through nullish coalescing and every other
entry is untouched. -/
theorem mergeApply_any_carries (parsedImport : ParsedImportBlock)
    (pc : ParsedImportClause) (bf s : Str) (t : Bool) (d : Str) :
    ∀ (l l' : List MergedImportEntry) (ps : List Str),
      mergeApply parsedImport pc bf l = some (l', ps) →
      l.any (entryCarries s t d) = true →
      l'.any (entryCarries s t d) = true := by
  intro l
  induction l with
  | nil =>
    intro l' ps h _
    simp only [mergeApply] at h
    exact absurd h (by simp)
  | cons e es ih =>
    intro l' ps h hany
    rw [List.any_cons] at hany
    simp only [mergeApply] at h
    split at h
    · rename_i hpred
      split at h
      · rename_i hcl
        rw [Option.some.injEq, Prod.mk.injEq] at h
        obtain ⟨hl, _⟩ := h
        subst hl
        have hcle : e.clause = none := hcl
        rw [List.any_cons]
        rcases Bool.or_eq_true_iff.mp hany with hc | hrest
        · simp [entryCarries, hcle] at hc
        · rw [hrest, Bool.or_true]
      · rename_i cl hcl
        rw [Option.some.injEq, Prod.mk.injEq] at h
        obtain ⟨hl, _⟩ := h
        subst hl
        have hcle : e.clause = some cl := hcl
        rw [List.any_cons]
        rcases Bool.or_eq_true_iff.mp hany with hc | hrest
        · simp only [entryCarries, hcle, Bool.and_eq_true, decide_eq_true_eq] at hc
          obtain ⟨⟨hs1, ht1⟩, hd1⟩ := hc
          have hcar : entryCarries s t d
              { source := e.source, quote := e.quote, isTypeOnly := e.isTypeOnly,
                hasSemicolon := e.hasSemicolon || parsedImport.hasSemicolon,
                clause := some (mergeParsedImportClauses cl pc) } = true := by
            simp [entryCarries, hs1, ht1, mergeParsedImportClauses, hd1, jsNullish]
          rw [hcar, Bool.true_or]
        · rw [hrest, Bool.or_true]
    · split at h
      · exact absurd h (by simp)
      · rename_i es1 ps1 heq
        rw [Option.some.injEq, Prod.mk.injEq] at h
        obtain ⟨hl, _⟩ := h
        subst hl
        rw [List.any_cons]
        rcases Bool.or_eq_true_iff.mp hany with hc | hrest
        · rw [hc, Bool.true_or]
        · rw [ih es1 ps1 heq hrest, Bool.or_true]

/-- In-place merging preserves the no-empty-default invariant. -/
theorem mergeApply_stateOk (parsedImport : ParsedImportBlock)
    (pc : ParsedImportClause) (bf : Str) (hpc : pc.defaultImport ≠ some []) :
    ∀ (l l' : List MergedImportEntry) (ps : List Str),
      mergeApply parsedImport pc bf l = some (l', ps) →
      (∀ e ∈ l, ∀ cl, e.clause = some cl → cl.defaultImport ≠ some []) →
      ∀ e ∈ l', ∀ cl, e.clause = some cl → cl.defaultImport ≠ some [] := by
  intro l
  induction l with
  | nil =>
    intro l' ps h _
    simp only [mergeApply] at h
    exact absurd h (by simp)
  | cons e es ih =>
    intro l' ps h hok
    simp only [mergeApply] at h
    split at h
    · rename_i hpred
      split at h
      · rename_i hcl
        rw [Option.some.injEq, Prod.mk.injEq] at h
        obtain ⟨hl, _⟩ := h
        subst hl
        intro e2 he2 cl2 hcl2
        rcases List.mem_cons.mp he2 with he2 | he2
        · subst he2
          rw [hcl] at hcl2
          exact absurd hcl2 (by simp)
        · exact hok e2 (List.mem_cons_of_mem _ he2) cl2 hcl2
      · rename_i cl hcl
        rw [Option.some.injEq, Prod.mk.injEq] at h
        obtain ⟨hl, _⟩ := h
        subst hl
        intro e2 he2 cl2 hcl2
        rcases List.mem_cons.mp he2 with he2 | he2
        · subst he2
          have hcle : e.clause = some cl := hcl
          have hinj : some (mergeParsedImportClauses cl pc) = some cl2 := hcl2
          rw [Option.some.injEq] at hinj
          subst hinj
          exact jsNullish_ne_empty _ _ (hok e (List.mem_cons_self _ _) cl hcle) hpc
        · exact hok e2 (List.mem_cons_of_mem _ he2) cl2 hcl2
    · split at h
      · exact absurd h (by simp)
      · rename_i es1 ps1 heq
        rw [Option.some.injEq, Prod.mk.injEq] at h
        obtain ⟨hl, _⟩ := h
        subst hl
        intro e2 he2 cl2 hcl2
        rcases List.mem_cons.mp he2 with he2 | he2
        · rw [he2] at hcl2
          exact hok _ (List.mem_cons_self _ _) cl2 hcl2
        · exact ih es1 ps1 heq (fun e3 he3 => hok e3 (List.mem_cons_of_mem _ he3)) e2 he2 cl2 hcl2

/-- When in-place merging succeeds for an incoming clause with a
non-empty default binding `d`, the updated entry list carries `d` for
the incoming source and type-only flag. -/
theorem mergeApply_found_carries (parsedImport : ParsedImportBlock)
    (pc : ParsedImportClause) (bf : Str) (d : Str)
    (hd : pc.defaultImport = some d) (hdne : d ≠ []) :
    ∀ (l l' : List MergedImportEntry) (ps : List Str),
      mergeApply parsedImport pc bf l = some (l', ps) →
      (∀ e ∈ l, ∀ cl, e.clause = some cl → cl.defaultImport ≠ some []) →
      l'.any (entryCarries parsedImport.source parsedImport.isTypeOnly d) = true := by
  intro l
  induction l with
  | nil =>
    intro l' ps h _
    simp only [mergeApply] at h
    exact absurd h (by simp)
  | cons e es ih =>
    intro l' ps h hok
    simp only [mergeApply] at h
    split at h
    · rename_i hpred
      split at h
      · rename_i hcl
        have hcle : e.clause = none := hcl
        simp [mergePred, hcle] at hpred
      · rename_i cl hcl
        rw [Option.some.injEq, Prod.mk.injEq] at h
        obtain ⟨hl, _⟩ := h
        subst hl
        have hcle : e.clause = some cl := hcl
        simp only [mergePred, hcle, Bool.and_eq_true, decide_eq_true_eq] at hpred
        obtain ⟨⟨hsrc, hty⟩, hcm⟩ := hpred
        have hnew : (mergeParsedImportClauses cl pc).defaultImport = some d := by
          simp only [mergeParsedImportClauses]
          cases hcd : cl.defaultImport with
          | none => simp [jsNullish, hd]
          | some x =>
            have hxne : x ≠ [] := by
              have hx := hok e (List.mem_cons_self _ _) cl hcle
              rw [hcd] at hx
              intro hxe
              subst hxe
              exact hx rfl
            have hxd := canMerge_default_eq cl pc x d hcd hd hxne hdne hcm
            subst hxd
            simp [jsNullish, hd]
        rw [List.any_cons]
        have hcar : entryCarries parsedImport.source parsedImport.isTypeOnly d
            { source := e.source, quote := e.quote, isTypeOnly := e.isTypeOnly,
              hasSemicolon := e.hasSemicolon || parsedImport.hasSemicolon,
              clause := some (mergeParsedImportClauses cl pc) } = true := by
          simp [entryCarries, hsrc, hty, hnew]
        rw [hcar, Bool.true_or]
    · split at h
      · exact absurd h (by simp)
      · rename_i es1 ps1 heq
        rw [Option.some.injEq, Prod.mk.injEq] at h
        obtain ⟨hl, _⟩ := h
        subst hl
        rw [List.any_cons, ih es1 ps1 heq (fun e3 he3 => hok e3 (List.mem_cons_of_mem _ he3)),
          Bool.or_true]

/-- One merge-loop iteration preserves the no-empty-default invariant. -/
theorem mergeStep_stateOk (config : SortConfig) (st : MergeState) (b : Str)
    (h : stateOk st) : stateOk (mergeStep config st b) := by
  unfold stateOk at h ⊢
  simp only [mergeStep]
  split
  · exact h
  · rename_i parsedImport hparse
    split
    · split
      · exact h
      · intro e he cl hcl
        rcases List.mem_append.mp he with hm | hm
        · exact h e hm cl hcl
        · rw [List.mem_singleton] at hm
          subst hm
          exact absurd hcl (by simp)
    · rename_i importClause hclause
      split
      · exact h
      · split
        · intro e he cl hcl
          rcases List.mem_append.mp he with hm | hm
          · exact h e hm cl hcl
          · rw [List.mem_singleton] at hm
            subst hm
            have hinj := Option.some.inj
              (show some (⟨(parseImportClause importClause).defaultImport,
                (parseImportClause importClause).namespaceImport,
                (parseImportClause importClause).namedSpecifiers, true⟩ : ParsedImportClause) =
                some cl from hcl)
            rw [← hinj]
            exact parseImportClause_default_ne_empty importClause
        · rename_i entries1 ps1 heq
          intro e he cl hcl
          exact mergeApply_stateOk parsedImport (parseImportClause importClause) _
            (parseImportClause_default_ne_empty _) st.mergedEntries entries1 ps1 heq h e he cl hcl

/-- One merge-loop iteration keeps every carried default binding. -/
theorem mergeStep_carries_persist (config : SortConfig) (st : MergeState) (b s : Str)
    (t : Bool) (d : Str)
    (h : st.mergedEntries.any (entryCarries s t d) = true) :
    (mergeStep config st b).mergedEntries.any (entryCarries s t d) = true := by
  simp only [mergeStep]
  split
  · exact h
  · rename_i parsedImport hparse
    split
    · split
      · exact h
      · show (st.mergedEntries ++ [_]).any (entryCarries s t d) = true
        rw [List.any_append, h, Bool.true_or]
    · rename_i importClause hclause
      split
      · exact h
      · split
        · show (st.mergedEntries ++ [_]).any (entryCarries s t d) = true
          rw [List.any_append, h, Bool.true_or]
        · rename_i entries1 ps1 heq
          exact mergeApply_any_carries parsedImport (parseImportClause importClause) _ s t d
            st.mergedEntries entries1 ps1 heq h

/-- Feeding the loop an import with a mergeable clause carrying a
non-empty default binding installs that binding in the entry list:
either an existing compatible entry keeps it (equal defaults) or a
fresh entry is appended with it. -/
theorem mergeStep_carries_new (config : SortConfig) (st : MergeState) (b s : Str)
    (t : Bool) (d : Str) (hok : stateOk st)
    (hb : importHasDefault s t d b = true) (hdne : d ≠ []) :
    (mergeStep config st b).mergedEntries.any (entryCarries s t d) = true := by
  simp only [importHasDefault] at hb
  split at hb
  · exact absurd hb (by simp)
  · rename_i parsedImport hparse
    split at hb
    · exact absurd hb (by simp)
    · rename_i importClause hclause
      simp only [Bool.and_eq_true, decide_eq_true_eq] at hb
      obtain ⟨⟨hs, ht⟩, hm, hd⟩ := hb
      simp only [mergeStep, hparse, hclause, hm, Bool.not_true, Bool.false_eq_true, if_false]
      split
      · rename_i heq
        show (st.mergedEntries ++ [_]).any (entryCarries s t d) = true
        rw [List.any_append]
        simp [entryCarries, hs, ht, hd]
      · rename_i entries1 ps1 heq
        have hfound := mergeApply_found_carries parsedImport (parseImportClause importClause) _
          d hd hdne st.mergedEntries entries1 ps1 heq hok
        rw [hs, ht] at hfound
        exact hfound

/-- The whole merge loop preserves the no-empty-default invariant. -/
theorem foldl_mergeStep_stateOk (config : SortConfig) :
    ∀ (l : List Str) (st : MergeState), stateOk st →
      stateOk (l.foldl (mergeStep config) st) := by
  intro l
  induction l with
  | nil => intro st h; exact h
  | cons b rest ih =>
    intro st h
    rw [List.foldl_cons]
    exact ih _ (mergeStep_stateOk config st b h)

/-- The whole merge loop keeps every carried default binding. -/
theorem foldl_mergeStep_carries (config : SortConfig) (s : Str) (t : Bool) (d : Str) :
    ∀ (l : List Str) (st : MergeState),
      st.mergedEntries.any (entryCarries s t d) = true →
      (l.foldl (mergeStep config) st).mergedEntries.any (entryCarries s t d) = true := by
  intro l
  induction l with
  | nil => intro st h; exact h
  | cons b rest ih =>
    intro st h
    rw [List.foldl_cons]
    exact ih _ (mergeStep_carries_persist config st b s t d h)

/-- Claim C3: two imports of the same source and kind whose clauses
carry different non-empty default bindings are never combined into one
output statement of the merger — each default survives in its own
merged entry, and each of those entries is rendered as its own
individually formatted statement of the output list. -/
theorem mergeImportStatements_conflicting_defaults_kept
    (pre mid post : List Str) (b1 b2 : Str) (config : SortConfig)
    (s : Str) (t : Bool) (d1 d2 : Str)
    (h1 : importHasDefault s t d1 b1 = true)
    (h2 : importHasDefault s t d2 b2 = true)
    (hd1 : d1 ≠ []) (hd2 : d2 ≠ []) (hne : d1 ≠ d2) :
    ∃ e1 e2 : MergedImportEntry,
      e1 ∈ (mergeEntriesOf (pre ++ b1 :: mid ++ b2 :: post) config).mergedEntries ∧
      e2 ∈ (mergeEntriesOf (pre ++ b1 :: mid ++ b2 :: post) config).mergedEntries ∧
      entryCarries s t d1 e1 = true ∧ entryCarries s t d2 e2 = true ∧ e1 ≠ e2 ∧
      formatMergedImportEntry e1 config ∈
        mergeImportStatements (pre ++ b1 :: mid ++ b2 :: post) config ∧
      formatMergedImportEntry e2 config ∈
        mergeImportStatements (pre ++ b1 :: mid ++ b2 :: post) config := by
  have hfold : mergeEntriesOf (pre ++ b1 :: mid ++ b2 :: post) config =
      post.foldl (mergeStep config)
        (mergeStep config
          (mid.foldl (mergeStep config)
            (mergeStep config (pre.foldl (mergeStep config) ⟨[], []⟩) b1)) b2) := by
    rw [mergeEntriesOf, List.foldl_append, List.foldl_cons, List.foldl_append, List.foldl_cons]
  have hinit : stateOk (⟨[], []⟩ : MergeState) := by
    intro e he cl hcl
    exact absurd he (List.not_mem_nil e)
  have hok0 := foldl_mergeStep_stateOk config pre _ hinit
  have hc1 := mergeStep_carries_new config _ b1 s t d1 hok0 h1 hd1
  have hok1 := mergeStep_stateOk config _ b1 hok0
  have hc1m := foldl_mergeStep_carries config s t d1 mid _ hc1
  have hokm := foldl_mergeStep_stateOk config mid _ hok1
  have hc2s := mergeStep_carries_new config _ b2 s t d2 hokm h2 hd2
  have hc1s := mergeStep_carries_persist config _ b2 s t d1 hc1m
  have hcf1 := foldl_mergeStep_carries config s t d1 post _ hc1s
  have hcf2 := foldl_mergeStep_carries config s t d2 post _ hc2s
  rw [← hfold] at hcf1 hcf2
  have hout : ∀ e ∈ (mergeEntriesOf (pre ++ b1 :: mid ++ b2 :: post) config).mergedEntries,
      formatMergedImportEntry e config ∈
        mergeImportStatements (pre ++ b1 :: mid ++ b2 :: post) config := by
    intro e he
    unfold mergeImportStatements
    exact List.mem_append_left _ (List.mem_map_of_mem _ he)
  obtain ⟨e1, he1, hp1⟩ := List.any_eq_true.mp hcf1
  obtain ⟨e2, he2, hp2⟩ := List.any_eq_true.mp hcf2
  refine ⟨e1, e2, he1, he2, hp1, hp2, ?_, hout e1 he1, hout e2 he2⟩
  intro heq
  subst heq
  unfold entryCarries at hp1 hp2
  cases hcl : e1.clause with
  | none =>
    rw [hcl] at hp1
    simp at hp1
  | some cl =>
    rw [hcl] at hp1 hp2
    simp only [Bool.and_eq_true, decide_eq_true_eq] at hp1 hp2
    exact hne (Option.some.inj (hp1.2.symm.trans hp2.2))

set_option maxRecDepth 400000 in
/-- Witness for C3 at a concrete input: `import A from 'x';` and
`import B from 'x';` share the source but conflict on the default
binding, and survive as two distinct formatted statements. -/
theorem mergeImportStatements_conflicting_defaults_kept_witness :
    importHasDefault "x".toList false "A".toList "import A from 'x';".toList = true ∧
    importHasDefault "x".toList false "B".toList "import B from 'x';".toList = true ∧
    "A".toList ≠ "B".toList ∧
    ∃ e1 e2 : MergedImportEntry,
      e1 ∈ (mergeEntriesOf ["import A from 'x';".toList, "import B from 'x';".toList]
        defaultSortConfig).mergedEntries ∧
      e2 ∈ (mergeEntriesOf ["import A from 'x';".toList, "import B from 'x';".toList]
        defaultSortConfig).mergedEntries ∧
      entryCarries "x".toList false "A".toList e1 = true ∧
      entryCarries "x".toList false "B".toList e2 = true ∧ e1 ≠ e2 ∧
      formatMergedImportEntry e1 defaultSortConfig ∈
        mergeImportStatements ["import A from 'x';".toList, "import B from 'x';".toList]
          defaultSortConfig ∧
      formatMergedImportEntry e2 defaultSortConfig ∈
        mergeImportStatements ["import A from 'x';".toList, "import B from 'x';".toList]
          defaultSortConfig :=
  ⟨by decide, by decide, by decide,
    mergeImportStatements_conflicting_defaults_kept [] [] []
      "import A from 'x';".toList "import B from 'x';".toList defaultSortConfig
      "x".toList false "A".toList "B".toList
      (by decide) (by decide) (by decide) (by decide) (by decide)⟩

end SortImports
